import Mathlib

/-!
# Verification of the ContainerIRQTool core algorithms

A shallow embedding, in Lean 4, of the core algorithms of the
ContainerIRQTool repository (`shared_data.py`, `irq_analyzer.py`,
`llc_analyzer.py`, `numa_analyzer.py`), together with theorems settling
the behavioural claims about them.

Modelling conventions:
* Python strings are modelled as `List Char`; Python `str.split`,
  `str.strip`, `str.isdigit`, `int(...)` and f-string number rendering
  are embedded as executable functions below.
* Python `float` division (used only for the interrupts-per-hour rate)
  is modelled by exact division in `ℚ`.
* Python dictionaries are modelled as association lists in insertion
  order; `dict[k] = v` is insert-or-overwrite, lookup takes the first
  (unique) matching key.
* Python functions that can raise an uncaught exception are modelled
  with an `Option` result, `none` meaning the exception.
* Filesystem reads are modelled by passing the file contents (or `none`
  for a missing/unreadable file) as explicit arguments; for the caching
  claims a small explicit state (`CacheWorld`) with a read counter is
  threaded instead.
-/

/-! ## Characters and decimal numerals -/

/-- The decimal digit character for `d < 10` (`'0'` + d). -/
def digitToChar (d : ℕ) : Char := Char.ofNat ('0'.toNat + d)

/-- Is `c` an ASCII decimal digit (code 48–57)? (model of Python
`str.isdigit` per character) -/
def isDigitChar (c : Char) : Bool := 48 ≤ c.toNat && c.toNat ≤ 57

/-- Numeric value of a digit character. -/
def charVal (c : Char) : ℕ := c.toNat - '0'.toNat

/-- Value of a decimal digit string (the core loop of Python `int` on digits). -/
def digitsVal (l : List Char) : ℕ := l.foldl (fun a c => a * 10 + charVal c) 0

/-- Fuelled decimal rendering of a natural number (model of Python `str(n)`),
structurally recursive so that it evaluates by `decide`/`rfl`. -/
def renderNatAux : ℕ → ℕ → List Char
  | 0, _ => []
  | fuel + 1, n =>
    if n < 10 then [digitToChar n]
    else renderNatAux fuel (n / 10) ++ [digitToChar (n % 10)]

/-- Decimal rendering of a natural number, model of Python `str(n)` for `n ≥ 0`. -/
def renderNat (n : ℕ) : List Char := renderNatAux (n + 1) n

/-- Model of Python `str.isdigit` on ASCII strings: non-empty and all ASCII
decimal digits.  Python's `str.isdigit` also accepts non-ASCII Unicode digit
characters (e.g. superscript two, U+00B2) on which `int(...)` nevertheless
raises `ValueError`; the theorems that rely on `isdigit`-guarded `int(...)`
never raising therefore restrict their inputs to ASCII. -/
def pyIsDigit (l : List Char) : Bool := !l.isEmpty && l.all isDigitChar

/-- Is `c` an ASCII character Python treats as whitespace
(`str.isspace` / `str.strip` / `str.split`): codes 0x09–0x0D, 0x1C–0x1F and
0x20?  Non-ASCII Unicode whitespace (U+0085, U+00A0, …) is not modelled; the
theorems that depend on stripping restrict their inputs to ASCII. -/
def pyIsSpace (c : Char) : Bool :=
  decide ((9 ≤ c.toNat ∧ c.toNat ≤ 13) ∨ (28 ≤ c.toNat ∧ c.toNat ≤ 31) ∨ c.toNat = 32)

/-- Model of Python `str.strip()`: drop leading and trailing whitespace. -/
def trim (l : List Char) : List Char :=
  ((l.dropWhile pyIsSpace).reverse.dropWhile pyIsSpace).reverse

/-- Split a character list on a separator character (model of Python
`str.split(sep)`): always at least one piece, empty pieces preserved. -/
def splitOnChar (c : Char) : List Char → List (List Char)
  | [] => [[]]
  | x :: xs =>
    match splitOnChar c xs with
    | [] => [[x]]
    | y :: ys => if x = c then [] :: y :: ys else (x :: y) :: ys

/-- Join tokens with a comma (model of Python `",".join(...)`). -/
def joinComma : List (List Char) → List Char
  | [] => []
  | [t] => t
  | t :: ts => t ++ ',' :: joinComma ts

/-- Accumulator-based splitter on whitespace, dropping empty pieces. -/
def wordsAux : List Char → List Char → List (List Char)
  | [], acc => if acc.isEmpty then [] else [acc.reverse]
  | c :: rest, acc =>
    if pyIsSpace c then
      if acc.isEmpty then wordsAux rest [] else acc.reverse :: wordsAux rest []
    else wordsAux rest (c :: acc)

/-- Model of Python `str.split()` with no argument: split on whitespace runs. -/
def words (l : List Char) : List (List Char) := wordsAux l []

/-- Does `p` occur as a prefix of `l`? (model of Python `str.startswith`). -/
def startsWith : List Char → List Char → Bool
  | [], _ => true
  | _ :: _, [] => false
  | p :: ps, x :: xs => p = x && startsWith ps xs

/-- Model of Python `int(s)` on a string: strip whitespace, optional single
sign, then a non-empty run of decimal digits; `none` models `ValueError`.
(Underscored integer literals accepted by CPython are not modelled; no input
relevant to the claims contains them.) -/
def pyInt (l : List Char) : Option ℤ :=
  match trim l with
  | [] => none
  | c :: rest =>
    if c = '+' then
      if pyIsDigit rest then some (digitsVal rest : ℤ) else none
    else if c = '-' then
      if pyIsDigit rest then some (-(digitsVal rest : ℤ)) else none
    else
      if pyIsDigit (c :: rest) then some (digitsVal (c :: rest) : ℤ) else none

/-! ## CPU Range Codec (`shared_data.parse_cpu_range` /
`shared_data.format_cpu_list_range`) -/

/-- Model of Python `list(range(a, b))` over the integers. -/
def rangeZ (a b : ℤ) : List ℤ := (List.range (b - a).toNat).map (fun (i : ℕ) => a + (i : ℤ))

/-- Process one comma-separated token of a CPU range string: the body of the
`for part in cpu_range_str.split(',')` loop of `parse_cpu_range`.  `none`
models an uncaught `ValueError` (raised by `int` or by unpacking
`part.split('-')` into two names); `some []` is a silently skipped token. -/
def parseToken (part0 : List Char) : Option (List ℤ) :=
  let part := trim part0
  if '-' ∈ part then
    match splitOnChar '-' part with
    | [p, q] =>
      match pyInt p, pyInt q with
      | some a, some b => some (rangeZ a (b + 1))
      | _, _ => none
    | _ => none
  else if pyIsDigit part then some [(digitsVal part : ℤ)]
  else some []

/-- The token loop of `parse_cpu_range`, accumulating `cpus`. -/
def parseGo : List (List Char) → List ℤ → Option (List ℤ)
  | [], acc => some acc
  | p :: ps, acc =>
    match parseToken p with
    | none => none
    | some vs => parseGo ps (acc ++ vs)

/-- Model of `shared_data.parse_cpu_range` (identical copies live in
`llc_analyzer.py` and `numa_analyzer.py`): parse a CPU range string such as
`"0-3,8-11,16"` into the list of CPU numbers; `none` models an uncaught
`ValueError`. -/
def parse_cpu_range (s : List Char) : Option (List ℤ) :=
  if s = [] ∨ s = "null".toList ∨ s = "empty".toList then some []
  else parseGo (splitOnChar ',' s) []

/-- The look-ahead step detection of `format_cpu_list_range`: with at least
three elements remaining, if the next two gaps agree that gap is the step,
otherwise the step is 1. -/
def detectStep : List ℕ → ℕ
  | a :: b :: c :: _ => if c - b = b - a then b - a else 1
  | _ => 1

/-- The inner `while` loop of `format_cpu_list_range`: starting from `cur`,
consume elements as long as each equals the previous plus `step`; returns the
last element of the run and the unconsumed remainder. -/
def takeRun (cur step : ℕ) : List ℕ → ℕ × List ℕ
  | [] => (cur, [])
  | x :: xs => if x = cur + step then takeRun x step xs else (cur, x :: xs)

/-- Fuelled outer loop of `format_cpu_list_range`: decompose a sorted CPU
list into maximal `(start, end, step)` runs. -/
def chunksOfAux : ℕ → List ℕ → List (ℕ × ℕ × ℕ)
  | 0, _ => []
  | _, [] => []
  | fuel + 1, a :: rest =>
    let s := detectStep (a :: rest)
    let p := takeRun a s rest
    (a, p.1, s) :: chunksOfAux fuel p.2

/-- Decompose a sorted CPU list into maximal `(start, end, step)` runs. -/
def chunksOf (l : List ℕ) : List (ℕ × ℕ × ℕ) := chunksOfAux l.length l

/-- The elements of a `(start, end, step)` run:
Python `list(range(start, end + 1, step))`. -/
def stepSeq (st e s : ℕ) : List ℕ := List.range' st ((e - st) / s + 1) s

/-- Render one `(start, end, step)` run: the range-formatting branch ladder of
`format_cpu_list_range`. -/
def fmtChunk (st e s : ℕ) : List Char :=
  if st = e then renderNat st
  else if s = 1 then renderNat st ++ '-' :: renderNat e
  else if s * 3 ≤ e - st then
    if s = 2 ∧ st % 2 = 0 then renderNat st ++ '-' :: renderNat e ++ ":2 (even)".toList
    else if s = 2 ∧ st % 2 = 1 then renderNat st ++ '-' :: renderNat e ++ ":2 (odd)".toList
    else renderNat st ++ '-' :: renderNat e ++ ':' :: renderNat s
  else joinComma ((stepSeq st e s).map renderNat)

/-- Model of `shared_data.format_cpu_list_range`: format a list of CPU
numbers into range format with step detection.  CPU numbers are natural
numbers, as everywhere in the tool. -/
def format_cpu_list_range (l : List ℕ) : List Char :=
  match l.insertionSort (· ≤ ·) with
  | [] => []
  | [a] => renderNat a
  | a :: b :: rest =>
    joinComma ((chunksOf (a :: b :: rest)).map (fun c => fmtChunk c.1 c.2.1 c.2.2))

/-! ## IRQ analyzer (`irq_analyzer.py`) -/

/-- Model of `irq_analyzer.calculate_interrupts_per_hour`: `none` when the
uptime is missing or not positive (Python `not uptime_seconds or
uptime_seconds <= 0`), otherwise `count / (uptime_seconds / 3600)`.
Float division is modelled exactly in `ℚ`. -/
def calculate_interrupts_per_hour (interrupt_count : ℕ) (uptime_seconds : Option ℚ) :
    Option ℚ :=
  match uptime_seconds with
  | none => none
  | some u => if u ≤ 0 then none else some ((interrupt_count : ℚ) / (u / 3600))

/-- Model of `irq_analyzer.get_irq_color_code`: ANSI color code and color
name for an IRQ given its interrupt count and rate. -/
def get_irq_color_code (interrupt_count : ℕ) (interrupts_per_hour : Option ℚ) :
    String × String :=
  if interrupt_count = 0 then ("\x1b[92m", "green")
  else
    match interrupts_per_hour with
    | none => ("\x1b[93m", "yellow")
    | some r => if r < 1000 then ("\x1b[93m", "yellow") else ("\x1b[91m", "red")

/-- Model of `irq_analyzer.check_irq_violations_for_cpu`: the IRQ numbers of
the affinity map whose CPU set contains `cpu`, in map order.  The map is an
association list in dict insertion order; the values are the stored CPU
sets. -/
def check_irq_violations_for_cpu (cpu : ℕ) (irq_to_cpus_map : List (ℕ × List ℕ)) :
    List ℕ :=
  (irq_to_cpus_map.filter (fun p => cpu ∈ p.2)).map Prod.fst

/-- First-match association-list lookup (Python `dict.get`). -/
def lookupA {α β : Type} [DecidableEq α] : List (α × β) → α → Option β
  | [], _ => none
  | p :: ps, k => if p.1 = k then some p.2 else lookupA ps k

/-- One violating IRQ's detail record from `analyze_irq_violations`. -/
structure ViolationDetail where
  irq : ℕ
  interrupt_count : ℕ
  interrupts_per_hour : Option ℚ
  color_code : String
  color_name : String
  device_info : List Char
deriving Repr, DecidableEq

/-- Per-CPU result record of `analyze_irq_violations`. -/
structure CpuViolations where
  violations : List ℕ
  violation_details : List ViolationDetail
  containers : List (List Char)
deriving Repr, DecidableEq

/-- Model of `irq_analyzer.analyze_irq_violations`, restricted to its pure
core: the I/O steps of the original (building the IRQ→CPU map from
`/proc/irq`, reading uptime, parsing `/proc/interrupts`, and the container
lookup) are passed in as already-read values
(`irq_to_cpus_map`, `uptime_seconds`, `irq_interrupt_counts`,
`irq_device_info`, `containers_for`).  Returns the `results` mapping: one
entry per isolated CPU that has at least one violation, in isolated-CPU
order. -/
def analyze_irq_violations (isolated_cpus : List ℕ)
    (irq_to_cpus_map : List (ℕ × List ℕ)) (uptime_seconds : Option ℚ)
    (irq_interrupt_counts : List (ℕ × ℕ)) (irq_device_info : List (ℕ × List Char))
    (containers_for : ℕ → List (List Char)) : List (ℕ × CpuViolations) :=
  if isolated_cpus = [] then []
  else if irq_to_cpus_map = [] then []
  else
    isolated_cpus.filterMap (fun cpu =>
      let violations := check_irq_violations_for_cpu cpu irq_to_cpus_map
      if violations = [] then none
      else
        let details := violations.map (fun irq_num =>
          let interrupt_count := (lookupA irq_interrupt_counts irq_num).getD 0
          let rate := calculate_interrupts_per_hour interrupt_count uptime_seconds
          let color := get_irq_color_code interrupt_count rate
          { irq := irq_num, interrupt_count := interrupt_count,
            interrupts_per_hour := rate, color_code := color.1,
            color_name := color.2,
            device_info := (lookupA irq_device_info irq_num).getD "unknown".toList })
        some (cpu, { violations := violations, violation_details := details,
                     containers := containers_for cpu }))

/-- Model of `irq_analyzer.build_irq_to_cpu_mapping`.  The scan of the IRQ
directory is modelled as a list of numeric-named IRQ directories, each
carrying its `smp_affinity_list` file: `none` means the file is absent
(`os.path.isfile` false, not counted), `some none` means it exists but
reading raises `OSError` (counted, skipped), `some (some content)` is a
successful read.  Returns the IRQ→CPU-set map and the number of IRQs
processed. -/
def buildIrqStep (acc : List (ℕ × List ℤ) × ℕ) (ent : ℕ × Option (Option (List Char))) :
    List (ℕ × List ℤ) × ℕ :=
  match ent.2 with
  | none => acc
  | some fileRead =>
    let acc := (acc.1, acc.2 + 1)
    match fileRead with
    | none => acc
    | some content =>
      let current_affinity := trim content
      if current_affinity = [] then acc
      else
        match parse_cpu_range current_affinity with
        | none => acc
        | some affinity_cpus =>
          if affinity_cpus = [] then acc
          else (acc.1 ++ [(ent.1, affinity_cpus)], acc.2)

/-- `build_irq_to_cpu_mapping` is the fold of `buildIrqStep` (one loop
iteration per IRQ directory) from the empty map and a zero count. -/
def build_irq_to_cpu_mapping (irq_dirs : List (ℕ × Option (Option (List Char)))) :
    List (ℕ × List ℤ) × ℕ :=
  irq_dirs.foldl buildIrqStep ([], 0)

/-! ## LLC analyzer (`llc_analyzer.py`) -/

/-- Result record of `llc_analyzer.check_llc_alignment`. -/
structure LlcAlignment where
  container_llc_nodes : List ℕ
  alignment_status : String
  misaligned_cpus : List ℕ
  aligned_cpus : List ℕ
  errors : List (List Char)
deriving Repr, DecidableEq

/-- Model of Python `max(iterable, key=...)`: the first element attaining the
maximal key (later elements replace the current maximum only on a strictly
larger key). -/
def maxByKeyFirst (key : ℕ → ℕ) : List ℕ → Option ℕ
  | [] => none
  | x :: xs => some (xs.foldl (fun cur y => if key cur < key y then y else cur) x)

/-- The LLC domains touched by the container CPUs, as stored in the result's
`container_llc_nodes` field: `sorted(list(container_llc_nodes))`.  The
explicit `sorted(...)` makes the Python set's iteration order irrelevant for
this field, so it is modelled as the ascending sorted list of the distinct
resolved domains. -/
def touchedLlcNodes (container_cpus : List ℕ) (cpu_to_llc : List (ℕ × ℕ)) : List ℕ :=
  ((container_cpus.filterMap (lookupA cpu_to_llc)).dedup).insertionSort (· ≤ ·)

/-- How many container CPUs map to LLC domain `node`
(`sum(1 for cpu in container_cpus if cpu_llc_mapping.get(cpu) == node)`). -/
def cpusOnLlcNode (container_cpus : List ℕ) (cpu_to_llc : List (ℕ × ℕ)) (node : ℕ) : ℕ :=
  container_cpus.countP (fun cpu => lookupA cpu_to_llc cpu = some node)

/-- Model of `llc_analyzer.check_llc_alignment`.  `llc_topology` maps each
derived LLC domain id to its CPU list (only its emptiness is inspected, as in
the source); `cpu_to_llc` is the CPU→domain reverse index.  `set_order` is
the order in which `max(container_llc_nodes, key=...)` iterates the Python
set of touched domains: CPython's set iteration order is implementation
defined (hash-slot order — for colliding small ints, e.g. `{8, 0}` inserted
8-first, it is neither ascending nor insertion order), so it is passed as an
explicit parameter; the theorems constrain it to be an enumeration (a
permutation) of the distinct touched domains.  It is only consulted in the
misaligned branch; the `container_llc_nodes` field and the branch tests use
`sorted(...)` / `len(...)`, which are order-independent. -/
def check_llc_alignment (container_cpus : List ℕ) (llc_topology : List (ℕ × List ℕ))
    (cpu_to_llc : List (ℕ × ℕ)) (set_order : List ℕ) : LlcAlignment :=
  let base : LlcAlignment :=
    { container_llc_nodes := [], alignment_status := "unknown",
      misaligned_cpus := [], aligned_cpus := [], errors := [] }
  if container_cpus = [] then
    { base with errors := ["No container CPUs provided".toList] }
  else if llc_topology = [] then
    { base with errors := ["Could not determine LLC topology".toList] }
  else
    let cpuErrors := (container_cpus.filter (fun cpu => lookupA cpu_to_llc cpu = none)).map
      (fun cpu => "Could not determine LLC node for CPU ".toList ++ renderNat cpu)
    let container_llc_nodes := touchedLlcNodes container_cpus cpu_to_llc
    let r := { base with errors := cpuErrors, container_llc_nodes := container_llc_nodes }
    if container_llc_nodes.length = 0 then
      { r with alignment_status := "error",
               errors := if r.errors = [] then
                 ["Could not determine LLC nodes for any container CPUs".toList]
               else r.errors }
    else if container_llc_nodes.length = 1 then
      { r with alignment_status := "aligned", aligned_cpus := container_cpus }
    else
      let main_llc_node :=
        (maxByKeyFirst (cpusOnLlcNode container_cpus cpu_to_llc) set_order).getD 0
      { r with alignment_status := "misaligned",
               aligned_cpus := container_cpus.filter
                 (fun cpu => lookupA cpu_to_llc cpu = some main_llc_node),
               misaligned_cpus := container_cpus.filter
                 (fun cpu => (lookupA cpu_to_llc cpu).isSome ∧
                   lookupA cpu_to_llc cpu ≠ some main_llc_node) }

/-! ## NUMA analyzer (`numa_analyzer.py`) -/

/-- Result record of `numa_analyzer.check_numa_alignment`.  `pci_numa_info`
records, per device address, the resolved NUMA node and the aligned flag. -/
structure NumaAlignment where
  container_numa_nodes : List ℕ
  pci_numa_info : List (List Char × Option ℤ × Bool)
  alignment_status : String
  misaligned_devices : List (List Char)
  aligned_devices : List (List Char)
  errors : List (List Char)
deriving Repr, DecidableEq

/-- The NUMA nodes touched by the container CPUs: every node of the topology
(in dict order) whose CPU set intersects the container CPU set, collected
without duplicates, as in the first loop of `check_numa_alignment`. -/
def touchedNumaNodes (container_cpus : List ℕ) (numa_topology : List (ℕ × List ℕ)) :
    List ℕ :=
  numa_topology.foldl (fun acc p =>
    if (p.2.filter (fun c => c ∈ container_cpus)) ≠ [] ∧ p.1 ∉ acc then
      acc ++ [p.1]
    else acc) []

/-- One iteration of the `for pci_addr in pci_devices` loop of
`check_numa_alignment`: the state is the result record under construction
together with the `all_aligned` flag. -/
def numaDevStep (container_numa_nodes : List ℕ) (pci_numa_of : List Char → Option ℤ)
    (st : NumaAlignment × Bool) (pci_addr : List Char) : NumaAlignment × Bool :=
  let r := st.1
  match pci_numa_of pci_addr with
  | none =>
    ({ r with pci_numa_info := r.pci_numa_info ++ [(pci_addr, none, false)],
              errors := r.errors ++
                ["Could not determine NUMA node for PCI device ".toList ++ pci_addr] },
     false)
  | some n =>
    if n ∈ container_numa_nodes.map (fun k => (k : ℤ)) then
      ({ r with pci_numa_info := r.pci_numa_info ++ [(pci_addr, some n, true)],
                aligned_devices := r.aligned_devices ++ [pci_addr] }, st.2)
    else
      ({ r with pci_numa_info := r.pci_numa_info ++ [(pci_addr, some n, false)],
                misaligned_devices := r.misaligned_devices ++ [pci_addr] }, false)

/-- Model of `numa_analyzer.check_numa_alignment`.  The per-device NUMA
lookup `get_pci_numa_info(pci_addr, base_dir)` (an I/O step) is passed in as
the function `pci_numa_of`. -/
def check_numa_alignment (container_cpus : List ℕ) (pci_devices : List (List Char))
    (numa_topology : List (ℕ × List ℕ)) (pci_numa_of : List Char → Option ℤ) :
    NumaAlignment :=
  let base : NumaAlignment :=
    { container_numa_nodes := [], pci_numa_info := [], alignment_status := "unknown",
      misaligned_devices := [], aligned_devices := [], errors := [] }
  if container_cpus = [] then
    { base with errors := ["No container CPUs provided".toList] }
  else if pci_devices = [] then
    { base with errors := ["No PCI devices provided".toList] }
  else
    let container_numa_nodes := touchedNumaNodes container_cpus numa_topology
    if container_numa_nodes = [] then
      { base with errors := ["Could not determine NUMA nodes for container CPUs".toList] }
    else
      let step := pci_devices.foldl (numaDevStep container_numa_nodes pci_numa_of)
        ({ base with container_numa_nodes := container_numa_nodes }, true)
      let r := step.1
      let all_aligned := step.2
      if all_aligned ∧ r.errors = [] then { r with alignment_status := "aligned" }
      else if r.misaligned_devices ≠ [] then { r with alignment_status := "misaligned" }
      else { r with alignment_status := "error" }

/-- The line-scanning state machine of
`numa_analyzer.get_pci_numa_info_from_lspci`: walk the (already
newline-split) lines of the `lspci -nnvv` capture, tracking the
`found_device` flag. -/
def lspciScan (short_pci : List Char) : List (List Char) → Bool → Option ℤ
  | [], _ => none
  | line :: rest, found =>
    let l := trim line
    if startsWith short_pci l then lspciScan short_pci rest true
    else if found ∧ startsWith "NUMA".toList l then
      match (words l).getLast? with
      | none => lspciScan short_pci rest false
      | some lastWord =>
        match pyInt lastWord with
        | some n => if 0 ≤ n then some n else lspciScan short_pci rest false
        | none => lspciScan short_pci rest false
    else if found ∧ l ≠ [] ∧ ¬ startsWith ['\t'] l ∧ ¬ startsWith [' '] l then
      if ':' ∈ l ∧ '.' ∈ l then lspciScan short_pci rest false
      else lspciScan short_pci rest found
    else lspciScan short_pci rest found

/-- Model of `numa_analyzer.get_pci_numa_info_from_lspci`: `lspci_file` is
the content of `sos_commands/pci/lspci_-nnvv` (`none` if absent or
unreadable). -/
def get_pci_numa_info_from_lspci (pci_address : List Char)
    (lspci_file : Option (List Char)) : Option ℤ :=
  match lspci_file with
  | none => none
  | some content =>
    let short_pci :=
      if startsWith "0000:".toList pci_address then pci_address.drop 5 else pci_address
    lspciScan short_pci (splitOnChar '\n' content) false

/-- Model of `numa_analyzer.get_pci_numa_info` in snapshot (sosreport) mode:
`numa_node_file` is the content of the device's sysfs `numa_node` attribute
(`none` if the file is absent or reading it raises), `lspci_file` as above. -/
def get_pci_numa_info (pci_address : List Char) (numa_node_file : Option (List Char))
    (lspci_file : Option (List Char)) : Option ℤ :=
  match numa_node_file with
  | some content =>
    match pyInt (trim content) with
    | some numa_node =>
      if 0 ≤ numa_node then some numa_node
      else get_pci_numa_info_from_lspci pci_address lspci_file
    | none => get_pci_numa_info_from_lspci pci_address lspci_file
  | none => get_pci_numa_info_from_lspci pci_address lspci_file

/-! ## Shared data caches (`shared_data.py`) and the LLC analyzer's own
topology loader

For the memoization claims the module-level mutable caches of
`shared_data.py` are modelled as an explicit state `CacheWorld`, threaded
through the loaders.  The underlying filesystem scans (directory listing,
per-file reads, record parsing) are abstracted into the fields `fsContainers`
/ `fsNuma` / `fsLlc`, which give, per snapshot source, the fully parsed scan
result; performing such a scan bumps the `fsReads` counter once.  The cache
bookkeeping itself (keys, the `_cache_initialized` flag, which paths store
into the cache and which return early) follows the source exactly. -/

/-- Abstract container-registry payload: container id paired with its parsed
record (opaque for the caching claims). -/
abbrev ContainerMap := List (List Char × ℕ)

/-- Parsed NUMA topology payload. -/
abbrev NumaTopo := List (ℕ × List ℕ)

/-- Parsed LLC topology payload: domain→CPUs map and CPU→domain index. -/
abbrev LlcTopo := List (ℕ × List ℕ) × List (ℕ × ℕ)

/-- The mutable module state of `shared_data.py` plus the (static) snapshot
filesystem and a scan counter.  `fsContainers src = none` models a source
whose `sos_commands/crio/containers` directory is missing. -/
structure CacheWorld where
  fsContainers : Option (List Char) → Option ContainerMap
  fsNuma : Option (List Char) → NumaTopo
  fsLlc : Option (List Char) → LlcTopo
  containerCache : List (Option (List Char) × ContainerMap)
  cacheInitialized : Bool
  numaCache : List (List Char × NumaTopo)
  llcCache : List (List Char × LlcTopo)
  fsReads : ℕ

/-- Insert-or-overwrite for association lists (Python `dict[k] = v`). -/
def insertA {α β : Type} [DecidableEq α] (k : α) (v : β) : List (α × β) → List (α × β)
  | [] => [(k, v)]
  | p :: ps => if p.1 = k then (k, v) :: ps else p :: insertA k v ps

/-- The cache key `base_dir or 'live'` (Python `or`: an empty string also
falls back to `'live'`). -/
def cacheKey (base_dir : Option (List Char)) : List Char :=
  match base_dir with
  | none => "live".toList
  | some s => if s = [] then "live".toList else s

/-- Model of `shared_data.load_all_container_data`: return the cached map
when `_cache_initialized` holds and the key is present; otherwise scan.  In
snapshot mode a missing containers directory returns an empty map **without
caching it**; a successful scan (and the live branch, which scans nothing)
stores its result and sets the flag. -/
def load_all_container_data (base_dir : Option (List Char)) (w : CacheWorld) :
    ContainerMap × CacheWorld :=
  match w.cacheInitialized, lookupA w.containerCache base_dir with
  | true, some cached => (cached, w)
  | _, _ =>
    match base_dir with
    | some _ =>
      let w1 := { w with fsReads := w.fsReads + 1 }
      match w.fsContainers base_dir with
      | none => ([], w1)
      | some containers =>
        (containers,
         { w1 with containerCache := insertA base_dir containers w1.containerCache,
                   cacheInitialized := true })
    | none =>
      ([], { w with containerCache := insertA none [] w.containerCache,
                    cacheInitialized := true })

/-- Model of `shared_data.get_numa_topology`: cached by `base_dir or 'live'`;
on a miss, scan and cache unconditionally. -/
def get_numa_topology (base_dir : Option (List Char)) (w : CacheWorld) :
    NumaTopo × CacheWorld :=
  let key := cacheKey base_dir
  match lookupA w.numaCache key with
  | some cached => (cached, w)
  | none =>
    let numa_info := w.fsNuma base_dir
    (numa_info, { w with fsReads := w.fsReads + 1,
                         numaCache := insertA key numa_info w.numaCache })

/-- Model of `shared_data.get_llc_topology`: cached by `base_dir or 'live'`;
on a miss, scan and cache unconditionally (including the empty result for a
missing CPU directory). -/
def shared_get_llc_topology (base_dir : Option (List Char)) (w : CacheWorld) :
    LlcTopo × CacheWorld :=
  let key := cacheKey base_dir
  match lookupA w.llcCache key with
  | some cached => (cached, w)
  | none =>
    let result := w.fsLlc base_dir
    (result, { w with fsReads := w.fsReads + 1,
                      llcCache := insertA key result w.llcCache })

/-- Model of `llc_analyzer.get_llc_topology` — the LLC analyzer's **own**
topology loader (not the `shared_data` one): it consults no cache and scans
the filesystem on every call. -/
def llcAnalyzer_get_llc_topology (base_dir : Option (List Char)) (w : CacheWorld) :
    LlcTopo × CacheWorld :=
  (w.fsLlc base_dir, { w with fsReads := w.fsReads + 1 })

/-! ## Claim C2 — interrupt-rate severity bands -/

/-- **C2.** Severity classification of a flagged IRQ: a zero interrupt count
is classified "clear" (rendered green) regardless of uptime; a positive
count whose rate is unknown — uptime missing or not positive — or whose rate
`count / (uptime/3600)` is strictly below 1000/hr is classified "warning"
(yellow); a rate of at least 1000/hr is classified "critical" (red), the
boundary being inclusive on the critical side. -/
theorem C2_severity_bands (count : ℕ) (uptime : Option ℚ) :
    (count = 0 →
      (get_irq_color_code count (calculate_interrupts_per_hour count uptime)).2 = "green")
    ∧ (calculate_interrupts_per_hour count uptime = none ↔
        uptime = none ∨ ∃ u : ℚ, uptime = some u ∧ u ≤ 0)
    ∧ (∀ u : ℚ, uptime = some u → 0 < u →
        calculate_interrupts_per_hour count uptime = some ((count : ℚ) / (u / 3600)))
    ∧ (count ≠ 0 → calculate_interrupts_per_hour count uptime = none →
        (get_irq_color_code count (calculate_interrupts_per_hour count uptime)).2 = "yellow")
    ∧ (∀ r : ℚ, count ≠ 0 → calculate_interrupts_per_hour count uptime = some r →
        r < 1000 →
        (get_irq_color_code count (calculate_interrupts_per_hour count uptime)).2 = "yellow")
    ∧ (∀ r : ℚ, count ≠ 0 → calculate_interrupts_per_hour count uptime = some r →
        1000 ≤ r →
        (get_irq_color_code count (calculate_interrupts_per_hour count uptime)).2 = "red") := by
  refine ⟨?_, ?_, ?_, ?_, ?_, ?_⟩
  · intro h
    simp [get_irq_color_code, h]
  · cases uptime with
    | none => simp [calculate_interrupts_per_hour]
    | some u =>
      simp only [calculate_interrupts_per_hour]
      constructor
      · intro h
        by_cases hu : u ≤ 0
        · exact Or.inr ⟨u, rfl, hu⟩
        · simp [hu] at h
      · rintro (h | ⟨v, hv, hv0⟩)
        · exact absurd h (by simp)
        · cases hv
          simp [hv0]
  · intro u hu h0
    subst hu
    simp [calculate_interrupts_per_hour, not_le.mpr h0]
  · intro hc hn
    simp [get_irq_color_code, hc, hn]
  · intro r hc hr hlt
    simp [get_irq_color_code, hc, hr, hlt]
  · intro r hc hr hge
    simp [get_irq_color_code, hc, hr, not_lt.mpr hge]

/-- Witness for C2 at the claim's boundary instance: count 500 with uptime
1800 s gives rate exactly 1000/hr and is classified "critical" (red). -/
theorem C2_severity_bands_witness :
    calculate_interrupts_per_hour 500 (some 1800) = some 1000 ∧
    (get_irq_color_code 500 (calculate_interrupts_per_hour 500 (some 1800))).2 = "red" := by
  have hrate : calculate_interrupts_per_hour 500 (some 1800) = some 1000 := by
    norm_num [calculate_interrupts_per_hour]
  exact ⟨hrate,
    (C2_severity_bands 500 (some 1800)).2.2.2.2.2 1000 (by norm_num) hrate (by norm_num)⟩

/-! ## Claim C1 — IRQ-violation flagging -/

/-- **C1.** For every set of isolated CPUs and IRQ-affinity map, the
violation engine flags, for each isolated CPU, exactly the IRQs whose
affinity set contains that CPU; every entry of the result belongs to an
isolated CPU, an entry's violation list is exactly the flagged IRQs, and a
CPU has an entry if and only if it is isolated with at least one flagged
IRQ (so a CPU with zero flagged IRQs has no entry at all). -/
theorem C1_irq_violation_flagging (isolated_cpus : List ℕ)
    (irq_map : List (ℕ × List ℕ)) (uptime : Option ℚ) (counts : List (ℕ × ℕ))
    (devs : List (ℕ × List Char)) (cf : ℕ → List (List Char)) (cpu : ℕ)
    (hcpu : cpu ∈ isolated_cpus) :
    (∀ irq, irq ∈ check_irq_violations_for_cpu cpu irq_map ↔
        ∃ p ∈ irq_map, p.1 = irq ∧ cpu ∈ p.2)
    ∧ (∀ c r, (c, r) ∈ analyze_irq_violations isolated_cpus irq_map uptime counts devs cf →
        c ∈ isolated_cpus)
    ∧ (∀ r, (cpu, r) ∈ analyze_irq_violations isolated_cpus irq_map uptime counts devs cf →
        r.violations = check_irq_violations_for_cpu cpu irq_map)
    ∧ ((∃ r, (cpu, r) ∈ analyze_irq_violations isolated_cpus irq_map uptime counts devs cf)
        ↔ check_irq_violations_for_cpu cpu irq_map ≠ []) := by
  have hne : isolated_cpus ≠ [] := fun h => by simp [h] at hcpu
  refine ⟨?_, ?_, ?_, ?_⟩
  · intro irq
    simp only [check_irq_violations_for_cpu, List.mem_map, List.mem_filter]
    constructor
    · rintro ⟨p, ⟨hp, hmem⟩, hirq⟩
      exact ⟨p, hp, hirq, by simpa using hmem⟩
    · rintro ⟨p, hp, hirq, hmem⟩
      exact ⟨p, ⟨hp, by simpa using hmem⟩, hirq⟩
  · intro c r hmem
    simp only [analyze_irq_violations, hne, if_false] at hmem
    by_cases hm : irq_map = []
    · simp [hm] at hmem
    · simp only [hm, if_false, List.mem_filterMap] at hmem
      obtain ⟨a, ha, hfa⟩ := hmem
      by_cases hv : check_irq_violations_for_cpu a irq_map = []
      · simp [hv] at hfa
      · simp only [hv, if_false, Option.some.injEq] at hfa
        obtain ⟨h1, -⟩ := Prod.mk.injEq .. ▸ hfa
        exact h1 ▸ ha
  · intro r hmem
    simp only [analyze_irq_violations, hne, if_false] at hmem
    by_cases hm : irq_map = []
    · simp [hm] at hmem
    · simp only [hm, if_false, List.mem_filterMap] at hmem
      obtain ⟨a, _, hfa⟩ := hmem
      by_cases hv : check_irq_violations_for_cpu a irq_map = []
      · simp [hv] at hfa
      · simp only [hv, if_false, Option.some.injEq] at hfa
        obtain ⟨h1, h2⟩ := Prod.mk.injEq .. ▸ hfa
        subst h1
        exact (congrArg CpuViolations.violations h2).symm
  · constructor
    · rintro ⟨r, hmem⟩
      simp only [analyze_irq_violations, hne, if_false] at hmem
      by_cases hm : irq_map = []
      · simp [hm] at hmem
      · simp only [hm, if_false, List.mem_filterMap] at hmem
        obtain ⟨a, _, hfa⟩ := hmem
        by_cases hv : check_irq_violations_for_cpu a irq_map = []
        · simp [hv] at hfa
        · simp only [hv, if_false, Option.some.injEq] at hfa
          obtain ⟨h1, -⟩ := Prod.mk.injEq .. ▸ hfa
          exact h1 ▸ hv
    · intro hv
      have hm : irq_map ≠ [] := by
        intro h
        exact hv (by simp [check_irq_violations_for_cpu, h])
      simp only [analyze_irq_violations, hne, if_false, hm]
      exact ⟨_, List.mem_filterMap.mpr ⟨cpu, hcpu, by simp [hv]; rfl⟩⟩

/-- Witness for C1 at the spec's example: isolated CPUs `{2,3}` with
affinity map `{5: {2}, 6: {0,1}, 7: {3,9}}` yield exactly the violations
`{2: [5], 3: [7]}`. -/
theorem C1_irq_violation_flagging_witness :
    ((analyze_irq_violations [2, 3] [(5, [2]), (6, [0, 1]), (7, [3, 9])] none [] []
        (fun _ => [])).map (fun p => (p.1, p.2.violations)) = [(2, [5]), (3, [7])])
    ∧ (∃ r, (2, r) ∈ analyze_irq_violations [2, 3] [(5, [2]), (6, [0, 1]), (7, [3, 9])]
        none [] [] (fun _ => [])) := by
  refine ⟨by decide, ?_⟩
  exact (C1_irq_violation_flagging [2, 3] [(5, [2]), (6, [0, 1]), (7, [3, 9])] none [] []
    (fun _ => []) 2 (by decide)).2.2.2.mpr (by decide)

/-! ## Claim C8 — the IRQ-affinity map never stores an empty CPU set -/

/-- An IRQ directory entry whose affinity should be excluded from the map:
the file is missing, unreadable, stripped-empty, unparsable, or parses to no
CPUs. -/
def badAffinity : Option (Option (List Char)) → Bool
  | none => true
  | some none => true
  | some (some content) =>
    if trim content = [] then true
    else
      match parse_cpu_range (trim content) with
      | none => true
      | some [] => true
      | some (_ :: _) => false

/-- Any entry added by one `build_irq_to_cpu_mapping` loop iteration comes
from a readable, non-empty, successfully parsed, non-empty affinity. -/
theorem buildIrqStep_mem (acc : List (ℕ × List ℤ) × ℕ)
    (e : ℕ × Option (Option (List Char))) (p : ℕ × List ℤ)
    (hp : p ∈ (buildIrqStep acc e).1) :
    p ∈ acc.1 ∨ ∃ content, e.2 = some (some content) ∧ e.1 = p.1 ∧
      trim content ≠ [] ∧ parse_cpu_range (trim content) = some p.2 ∧ p.2 ≠ [] := by
  obtain ⟨eid, efile⟩ := e
  match efile with
  | none => exact Or.inl hp
  | some none => exact Or.inl hp
  | some (some content) =>
    simp only [buildIrqStep] at hp
    by_cases h1 : trim content = []
    · simp only [h1, if_true] at hp
      exact Or.inl hp
    · simp only [h1, if_false] at hp
      match hpar : parse_cpu_range (trim content) with
      | none => rw [hpar] at hp; exact Or.inl hp
      | some [] => rw [hpar] at hp; simp at hp; exact Or.inl hp
      | some (v :: vs) =>
        rw [hpar] at hp
        have hp' : p ∈ acc.1 ++ [(eid, v :: vs)] := hp
        rcases List.mem_append.mp hp' with h | h
        · exact Or.inl h
        · have hpe : p = (eid, v :: vs) := by simpa using h
          subst hpe
          exact Or.inr ⟨content, rfl, rfl, h1, hpar, by simp⟩

/-- Any entry of the folded IRQ map comes from the accumulator or from a
good entry of the scanned directory list. -/
theorem buildIrq_fold_mem (irq_dirs : List (ℕ × Option (Option (List Char)))) :
    ∀ (acc : List (ℕ × List ℤ) × ℕ) (p : ℕ × List ℤ),
      p ∈ (irq_dirs.foldl buildIrqStep acc).1 →
      p ∈ acc.1 ∨ ∃ e ∈ irq_dirs, ∃ content, e.2 = some (some content) ∧ e.1 = p.1 ∧
        trim content ≠ [] ∧ parse_cpu_range (trim content) = some p.2 ∧ p.2 ≠ [] := by
  induction irq_dirs with
  | nil => intro acc p hp; exact Or.inl hp
  | cons e rest ih =>
    intro acc p hp
    rw [List.foldl_cons] at hp
    rcases ih (buildIrqStep acc e) p hp with h | ⟨e', he', hgood⟩
    · rcases buildIrqStep_mem acc e p h with h' | hgood
      · exact Or.inl h'
      · exact Or.inr ⟨e, by simp, hgood⟩
    · exact Or.inr ⟨e', by simp [he'], hgood⟩

/-- **C1**-style invariant for the scanner — **C8.** The IRQ→CPU map built
by scanning the IRQ directories never contains an entry with an empty CPU
set, and an IRQ all of whose directory entries have a missing, unreadable,
empty or unparsable affinity file (or one parsing to no CPUs) is excluded
from the map entirely. -/
theorem C8_no_empty_affinity (irq_dirs : List (ℕ × Option (Option (List Char)))) :
    (∀ p ∈ (build_irq_to_cpu_mapping irq_dirs).1, p.2 ≠ [])
    ∧ (∀ irq : ℕ, (∀ e ∈ irq_dirs, e.1 = irq → badAffinity e.2 = true) →
        irq ∉ (build_irq_to_cpu_mapping irq_dirs).1.map Prod.fst) := by
  constructor
  · intro p hp
    rcases buildIrq_fold_mem irq_dirs ([], 0) p hp with h | ⟨_, _, _, _, _, _, _, hne⟩
    · simp at h
    · exact hne
  · intro irq hbad hmem
    obtain ⟨p, hp, hfst⟩ := List.mem_map.mp hmem
    rcases buildIrq_fold_mem irq_dirs ([], 0) p hp with h | ⟨e, he, c, hc, hid, h1, h2, h3⟩
    · simp at h
    · have := hbad e he (hid.trans hfst)
      rw [hc] at this
      simp only [badAffinity, h1, if_false] at this
      rw [h2] at this
      cases hpv : p.2 with
      | nil => exact h3 hpv
      | cons v vs => rw [hpv] at this; simp at this

/-- Witness for C8: a concrete scan with one good IRQ (3 → CPUs 0-1), one
empty affinity (4) and one missing file (5): the stored entry is non-empty
and IRQ 4 is absent from the map. -/
theorem C8_no_empty_affinity_witness :
    ((3 : ℕ), ([0, 1] : List ℤ)) ∈
      (build_irq_to_cpu_mapping
        [(3, some (some "0-1".toList)), (4, some (some "".toList)), (5, none)]).1 ∧
    ([0, 1] : List ℤ) ≠ [] ∧
    (4 : ℕ) ∉ (build_irq_to_cpu_mapping
        [(3, some (some "0-1".toList)), (4, some (some "".toList)), (5, none)]).1.map
        Prod.fst := by
  refine ⟨by decide, ?_, ?_⟩
  · exact (C8_no_empty_affinity
      [(3, some (some "0-1".toList)), (4, some (some "".toList)), (5, none)]).1
      (3, [0, 1]) (by decide)
  · exact (C8_no_empty_affinity
      [(3, some (some "0-1".toList)), (4, some (some "".toList)), (5, none)]).2
      4 (by decide)

/-! ## Claim C10 — negative sysfs NUMA nodes are never reported -/

/-- The lspci fallback scanner only ever returns a node it has checked to be
non-negative. -/
theorem lspciScan_nonneg (short_pci : List Char) :
    ∀ (lines : List (List Char)) (found : Bool) (n : ℤ),
      lspciScan short_pci lines found = some n → 0 ≤ n := by
  intro lines
  induction lines with
  | nil => intro found n h; simp [lspciScan] at h
  | cons line rest ih =>
    intro found n h
    simp only [lspciScan] at h
    split at h
    · exact ih true n h
    · split at h
      · split at h
        · exact ih false n h
        · split at h
          · split at h
            · cases h; assumption
            · exact ih false n h
          · exact ih false n h
      · split at h
        · split at h
          · exact ih false n h
          · exact ih found n h
        · exact ih found n h

/-- **C10.** The per-device NUMA lookup (snapshot mode) never reports a
negative node id: when the sysfs `numa_node` attribute parses to a negative
integer the lookup falls through to the lspci fallback, and every node id it
returns — from either source — is non-negative (`none` meaning unknown). -/
theorem C10_no_negative_numa_node (pci_address : List Char)
    (numa_node_file : Option (List Char)) (lspci_file : Option (List Char)) :
    (∀ content v, numa_node_file = some content → pyInt (trim content) = some v →
      v < 0 →
      get_pci_numa_info pci_address numa_node_file lspci_file =
        get_pci_numa_info_from_lspci pci_address lspci_file)
    ∧ (∀ n : ℤ, get_pci_numa_info pci_address numa_node_file lspci_file = some n →
        0 ≤ n) := by
  have hfb : ∀ n : ℤ, get_pci_numa_info_from_lspci pci_address lspci_file = some n →
      0 ≤ n := by
    intro n h
    match lspci_file with
    | none => simp [get_pci_numa_info_from_lspci] at h
    | some content =>
      simp only [get_pci_numa_info_from_lspci] at h
      exact lspciScan_nonneg _ _ _ n h
  constructor
  · intro content v hfile hv hneg
    subst hfile
    simp only [get_pci_numa_info, hv]
    rw [if_neg (by omega)]
  · intro n h
    match numa_node_file with
    | none => exact hfb n h
    | some content =>
      simp only [get_pci_numa_info] at h
      split at h
      · split at h
        · cases h; assumption
        · exact hfb n h
      · exact hfb n h

/-- Witness for C10: a sysfs `numa_node` reading `-1` falls through to an
lspci listing that resolves the device to node 1, and the returned node is
non-negative. -/
theorem C10_no_negative_numa_node_witness :
    (get_pci_numa_info "0000:2f:00.7".toList (some "-1".toList)
        (some "2f:00.7 Ethernet controller\n\tNUMA node: 1\n".toList) =
      get_pci_numa_info_from_lspci "0000:2f:00.7".toList
        (some "2f:00.7 Ethernet controller\n\tNUMA node: 1\n".toList))
    ∧ get_pci_numa_info "0000:2f:00.7".toList (some "-1".toList)
        (some "2f:00.7 Ethernet controller\n\tNUMA node: 1\n".toList) = some 1
    ∧ (0 : ℤ) ≤ 1 := by
  refine ⟨?_, by decide, ?_⟩
  · exact (C10_no_negative_numa_node _ _ _).1 "-1".toList (-1) rfl (by decide) (by decide)
  · exact (C10_no_negative_numa_node "0000:2f:00.7".toList (some "-1".toList)
      (some "2f:00.7 Ethernet controller\n\tNUMA node: 1\n".toList)).2 1 (by decide)

/-! ## Claim C6 — engines on an empty topology map -/

/-- Counterexample to C6 as stated: invoked directly with an empty topology
map, both alignment engines return status `"unknown"` (with a diagnostic
error), not `"error"` — the `"error"` status for a missing topology is
produced by their callers, which never invoke the engines in that case. -/
theorem C6_counterexample :
    (check_llc_alignment [0] [] [] []).alignment_status = "unknown" ∧
    (check_llc_alignment [0] [] [] []).alignment_status ≠ "error" ∧
    (check_numa_alignment [0] ["d".toList] [] (fun _ => none)).alignment_status =
      "unknown" ∧
    (check_numa_alignment [0] ["d".toList] [] (fun _ => none)).alignment_status ≠
      "error" := by
  refine ⟨by decide, by decide, ?_, ?_⟩ <;> decide

/-- **C6 (amended).** For every input, an alignment engine invoked with an
empty topology map returns a verdict with a non-empty human-readable errors
list and never raises; its status is `"unknown"` (the engines' callers in
`llc_analyzer.analyze_container_llc_alignment` and
`numa_analyzer.analyze_container_numa_alignment` translate an empty topology
into an `"error"` verdict themselves without calling the engine). -/
theorem C6_empty_topology_amended (cpus : List ℕ) (m : List (ℕ × ℕ))
    (set_order : List ℕ) (devices : List (List Char)) (look : List Char → Option ℤ) :
    ((check_llc_alignment cpus [] m set_order).alignment_status = "unknown" ∧
      (check_llc_alignment cpus [] m set_order).errors ≠ [])
    ∧ ((check_numa_alignment cpus devices [] look).alignment_status = "unknown" ∧
      (check_numa_alignment cpus devices [] look).errors ≠ []) := by
  constructor
  · by_cases hc : cpus = [] <;> simp [check_llc_alignment, hc]
  · by_cases hc : cpus = []
    · simp [check_numa_alignment, hc]
    · by_cases hd : devices = []
      · simp [check_numa_alignment, hc, hd]
      · simp [check_numa_alignment, hc, hd, touchedNumaNodes]

/-! ## Claim C4 — LLC alignment verdicts -/

/-- Python `max(iterable, key=...)` as a fold: the result is the seed or one
of the folded elements, and its key dominates the seed's key and every folded
element's key.  (Which maximizer wins a tie depends on the iteration order,
so no tie-break is asserted.) -/
theorem foldlMax_mem_le (key : ℕ → ℕ) :
    ∀ (xs : List ℕ) (cur : ℕ),
      (xs.foldl (fun c y => if key c < key y then y else c) cur = cur ∨
        xs.foldl (fun c y => if key c < key y then y else c) cur ∈ xs) ∧
      key cur ≤ key (xs.foldl (fun c y => if key c < key y then y else c) cur) ∧
      ∀ d ∈ xs, key d ≤ key (xs.foldl (fun c y => if key c < key y then y else c) cur) := by
  intro xs
  induction xs with
  | nil =>
    intro cur
    exact ⟨Or.inl rfl, le_refl _, by simp⟩
  | cons y ys ih =>
    intro cur
    simp only [List.foldl_cons]
    by_cases hk : key cur < key y
    · rw [if_pos hk]
      obtain ⟨hmem, hle, hall⟩ := ih y
      refine ⟨?_, le_of_lt (lt_of_lt_of_le hk hle), ?_⟩
      · rcases hmem with h | h
        · exact Or.inr (by simp [h])
        · exact Or.inr (by simp [h])
      · intro d hd
        rcases List.mem_cons.mp hd with rfl | hd'
        · exact hle
        · exact hall d hd'
    · rw [if_neg hk]
      obtain ⟨hmem, hle, hall⟩ := ih cur
      refine ⟨?_, hle, ?_⟩
      · rcases hmem with h | h
        · exact Or.inl h
        · exact Or.inr (by simp [h])
      · intro d hd
        rcases List.mem_cons.mp hd with rfl | hd'
        · exact le_trans (not_lt.mp hk) hle
        · exact hall d hd'

/-- `maxByKeyFirst` on a non-empty list returns some element of the list with
maximal key (on a key tie the list's order decides the winner). -/
theorem maxByKeyFirst_mem_le (key : ℕ → ℕ) (l : List ℕ) (hl : l ≠ []) :
    ∃ m, maxByKeyFirst key l = some m ∧ m ∈ l ∧ ∀ d ∈ l, key d ≤ key m := by
  match l with
  | [] => exact absurd rfl hl
  | x :: xs =>
    obtain ⟨hmem, hle, hall⟩ := foldlMax_mem_le key xs x
    refine ⟨_, rfl, ?_, ?_⟩
    · rcases hmem with h | h
      · simp [h]
      · simp [h]
    · intro d hd
      rcases List.mem_cons.mp hd with rfl | hd'
      · exact hle
      · exact hall d hd'

/-- Counterexample to C4 as stated: with an empty container CPU set (a
container CPU set, and zero domains resolved for it) the engine returns
early with status `"unknown"`, not `"error"`. -/
theorem C4_counterexample :
    (check_llc_alignment [] [(0, [0])] [] []).alignment_status = "unknown" ∧
    (check_llc_alignment [] [(0, [0])] [] []).alignment_status ≠ "error" := by
  exact ⟨by decide, by decide⟩

/-- **C4 (amended).** For every **non-empty** container CPU set and
**non-empty** LLC topology with CPU-to-domain index, and any enumeration
`set_order` of the touched-domain set (CPython's implementation-defined
iteration order of the Python set): zero resolved domains give status
`"error"` (with errors recorded); exactly one touched domain gives
`"aligned"` with every container CPU in the aligned items; more than one
touched domain gives `"misaligned"`, where the home domain is one to which
the most container CPUs map — which maximizer wins a count tie follows
`set_order`, not a deterministic lowest-id rule — CPUs of the home domain
are the aligned items and the remaining resolved CPUs are the misaligned
items.  (When the CPU set or the topology is empty the engine instead
returns early with status `"unknown"`.) -/
theorem C4_llc_alignment (cpus : List ℕ) (topo : List (ℕ × List ℕ)) (m : List (ℕ × ℕ))
    (set_order : List ℕ) (hc : cpus ≠ []) (ht : topo ≠ [])
    (horder : set_order.Perm (touchedLlcNodes cpus m)) :
    (touchedLlcNodes cpus m = [] →
      (check_llc_alignment cpus topo m set_order).alignment_status = "error" ∧
      (check_llc_alignment cpus topo m set_order).errors ≠ [])
    ∧ ((touchedLlcNodes cpus m).length = 1 →
      (check_llc_alignment cpus topo m set_order).alignment_status = "aligned" ∧
      (check_llc_alignment cpus topo m set_order).aligned_cpus = cpus)
    ∧ (2 ≤ (touchedLlcNodes cpus m).length →
      (check_llc_alignment cpus topo m set_order).alignment_status = "misaligned" ∧
      ∃ home ∈ touchedLlcNodes cpus m,
        (∀ d ∈ touchedLlcNodes cpus m,
          cpusOnLlcNode cpus m d ≤ cpusOnLlcNode cpus m home) ∧
        (check_llc_alignment cpus topo m set_order).aligned_cpus =
          cpus.filter (fun c => lookupA m c = some home) ∧
        (check_llc_alignment cpus topo m set_order).misaligned_cpus =
          cpus.filter (fun c => (lookupA m c).isSome ∧ lookupA m c ≠ some home)) := by
  refine ⟨?_, ?_, ?_⟩
  · intro h0
    simp [check_llc_alignment, hc, ht, h0]
    split
    · simp
    · next hnot =>
      push_neg at hnot
      obtain ⟨a, ha, hna⟩ := hnot
      intro hmapnil
      rw [List.map_eq_nil_iff, List.filter_eq_nil_iff] at hmapnil
      exact (hmapnil a ha) (by simp [hna])
  · intro h1
    simp [check_llc_alignment, hc, ht, h1]
  · intro h2
    have hne : touchedLlcNodes cpus m ≠ [] := by
      intro h
      rw [h] at h2
      simp at h2
    have hlen1 : ¬((touchedLlcNodes cpus m).length = 1) := by omega
    have hso : set_order ≠ [] := by
      intro h
      rw [h] at horder
      exact hne horder.symm.eq_nil
    obtain ⟨m0, hm0, hm0mem, hm0max⟩ :=
      maxByKeyFirst_mem_le (cpusOnLlcNode cpus m) set_order hso
    refine ⟨by simp [check_llc_alignment, if_neg hc, if_neg ht, if_neg hne, if_neg hlen1],
      m0, horder.mem_iff.mp hm0mem,
      fun d hd => hm0max d (horder.mem_iff.mpr hd), ?_, ?_⟩
    · simp [check_llc_alignment, if_neg hc, if_neg ht, if_neg hne, if_neg hlen1, hm0]
    · simp [check_llc_alignment, if_neg hc, if_neg ht, if_neg hne, if_neg hlen1, hm0]

/-- Witness for C4 at the spec's example: container CPUs `{0,4}` with CPU 0
in domain 0 (CPUs `{0,1,2}`) and CPU 4 in domain 1 (CPU `{4}`): misaligned,
and on this exact count tie (one container CPU per domain) the home domain
— hence the aligned/misaligned partition — follows the set-iteration order:
order `[0,1]` yields aligned item `{0}`, order `[1,0]` yields aligned item
`{4}`. -/
theorem C4_llc_alignment_witness :
    List.Perm [0, 1] (touchedLlcNodes [0, 4] [(0, 0), (1, 0), (2, 0), (4, 1)]) ∧
    (check_llc_alignment [0, 4] [(0, [0, 1, 2]), (1, [4])]
      [(0, 0), (1, 0), (2, 0), (4, 1)] [0, 1]).alignment_status = "misaligned" ∧
    (check_llc_alignment [0, 4] [(0, [0, 1, 2]), (1, [4])]
      [(0, 0), (1, 0), (2, 0), (4, 1)] [0, 1]).aligned_cpus = [0] ∧
    (check_llc_alignment [0, 4] [(0, [0, 1, 2]), (1, [4])]
      [(0, 0), (1, 0), (2, 0), (4, 1)] [1, 0]).aligned_cpus = [4] ∧
    (∃ home ∈ touchedLlcNodes [0, 4] [(0, 0), (1, 0), (2, 0), (4, 1)],
      (∀ d ∈ touchedLlcNodes [0, 4] [(0, 0), (1, 0), (2, 0), (4, 1)],
        cpusOnLlcNode [0, 4] [(0, 0), (1, 0), (2, 0), (4, 1)] d ≤
          cpusOnLlcNode [0, 4] [(0, 0), (1, 0), (2, 0), (4, 1)] home) ∧
      (check_llc_alignment [0, 4] [(0, [0, 1, 2]), (1, [4])]
        [(0, 0), (1, 0), (2, 0), (4, 1)] [0, 1]).aligned_cpus =
        [0, 4].filter (fun c => lookupA [(0, 0), (1, 0), (2, 0), (4, 1)] c = some home) ∧
      (check_llc_alignment [0, 4] [(0, [0, 1, 2]), (1, [4])]
        [(0, 0), (1, 0), (2, 0), (4, 1)] [0, 1]).misaligned_cpus =
        [0, 4].filter (fun c => (lookupA [(0, 0), (1, 0), (2, 0), (4, 1)] c).isSome ∧
          lookupA [(0, 0), (1, 0), (2, 0), (4, 1)] c ≠ some home)) := by
  refine ⟨by decide, by decide, by decide, by decide, ?_⟩
  exact ((C4_llc_alignment [0, 4] [(0, [0, 1, 2]), (1, [4])]
    [(0, 0), (1, 0), (2, 0), (4, 1)] [0, 1] (by decide) (by decide) (by decide)).2.2
    (by decide)).2

/-! ## Claim C5 — NUMA alignment verdicts -/

/-- Is device `d` resolved to a node inside the touched set? -/
def devAligned (touched : List ℕ) (look : List Char → Option ℤ) (d : List Char) : Bool :=
  match look d with
  | some n => n ∈ touched.map (fun k => (k : ℤ))
  | none => false

/-- Is device `d` resolved to a node outside the touched set? -/
def devMisaligned (touched : List ℕ) (look : List Char → Option ℤ) (d : List Char) :
    Bool :=
  match look d with
  | some n => ¬(n ∈ touched.map (fun k => (k : ℤ)))
  | none => false

/-- Characterization of the device loop of `check_numa_alignment`: the fold
leaves status and touched nodes unchanged, appends one error per unresolved
device, partitions resolved devices into aligned/misaligned, and the
`all_aligned` flag survives iff every device is aligned. -/
theorem numaDevLoop_spec (touched : List ℕ) (look : List Char → Option ℤ) :
    ∀ (ds : List (List Char)) (st : NumaAlignment × Bool),
      (ds.foldl (numaDevStep touched look) st).1.alignment_status =
        st.1.alignment_status ∧
      (ds.foldl (numaDevStep touched look) st).1.container_numa_nodes =
        st.1.container_numa_nodes ∧
      (ds.foldl (numaDevStep touched look) st).1.errors =
        st.1.errors ++ (ds.filter (fun d => look d = none)).map
          (fun d => "Could not determine NUMA node for PCI device ".toList ++ d) ∧
      (ds.foldl (numaDevStep touched look) st).1.aligned_devices =
        st.1.aligned_devices ++ ds.filter (devAligned touched look) ∧
      (ds.foldl (numaDevStep touched look) st).1.misaligned_devices =
        st.1.misaligned_devices ++ ds.filter (devMisaligned touched look) ∧
      (ds.foldl (numaDevStep touched look) st).2 =
        (st.2 && ds.all (devAligned touched look)) := by
  intro ds
  induction ds with
  | nil => intro st; simp
  | cons d ds ih =>
    intro st
    rw [List.foldl_cons]
    obtain ⟨ih1, ih2, ih3, ih4, ih5, ih6⟩ := ih (numaDevStep touched look st d)
    rw [ih1, ih2, ih3, ih4, ih5, ih6]
    match hl : look d with
    | none =>
      have hA : devAligned touched look d = false := by simp [devAligned, hl]
      have hM : devMisaligned touched look d = false := by simp [devMisaligned, hl]
      refine ⟨?_, ?_, ?_, ?_, ?_, ?_⟩ <;>
        simp [numaDevStep, hl, hA, hM, List.filter_cons, List.all_cons]
    | some n =>
      by_cases hmem : n ∈ touched.map (fun k => (k : ℤ))
      · have hA : devAligned touched look d = true := by
          simp only [devAligned, hl, decide_eq_true_eq]
          exact hmem
        have hM : devMisaligned touched look d = false := by
          simp only [devMisaligned, hl, decide_eq_false_iff_not, not_not]
          simpa using hmem
        refine ⟨?_, ?_, ?_, ?_, ?_, ?_⟩ <;>
        · simp only [numaDevStep, hl]
          try rw [if_pos hmem]
          try simp [hA, hM, hl, List.filter_cons, List.all_cons]
      · have hA : devAligned touched look d = false := by
          simp only [devAligned, hl, decide_eq_false_iff_not]
          simpa using hmem
        have hM : devMisaligned touched look d = true := by
          simp only [devMisaligned, hl, decide_eq_true_eq]
          simpa using hmem
        refine ⟨?_, ?_, ?_, ?_, ?_, ?_⟩ <;>
        · simp only [numaDevStep, hl]
          try rw [if_neg hmem]
          try simp [hA, hM, hl, List.filter_cons, List.all_cons]

/-- `devAligned` unfolded. -/
theorem devAligned_iff (t : List ℕ) (look : List Char → Option ℤ) (d : List Char) :
    devAligned t look d = true ↔
      ∃ n, look d = some n ∧ n ∈ t.map (fun k => (k : ℤ)) := by
  cases hl : look d <;> simp [devAligned, hl]

/-- `devMisaligned` unfolded. -/
theorem devMisaligned_iff (t : List ℕ) (look : List Char → Option ℤ) (d : List Char) :
    devMisaligned t look d = true ↔
      ∃ n, look d = some n ∧ n ∉ t.map (fun k => (k : ℤ)) := by
  cases hl : look d <;> simp [devMisaligned, hl]

/-- A device that is neither aligned nor misaligned is unresolved. -/
theorem dev_not_aligned_not_misaligned (t : List ℕ) (look : List Char → Option ℤ)
    (d : List Char) (h1 : devAligned t look d = false)
    (h2 : devMisaligned t look d = false) : look d = none := by
  cases hl : look d with
  | none => rfl
  | some n =>
    rw [devAligned, hl] at h1
    rw [devMisaligned, hl] at h2
    simp at h1 h2
    obtain ⟨x, hx, he⟩ := h2
    exact absurd he (h1 x hx)

/-- Counterexample to C5 as stated: with non-empty CPUs and devices but a
topology none of whose nodes intersects the container CPUs, the engine
returns early with status `"unknown"` — none of the three statuses the claim
allows (the device here resolves to a node outside the touched set, so the
claim requires "misaligned"). -/
theorem C5_counterexample :
    (check_numa_alignment [0] ["d".toList] [(0, [1])]
      (fun _ => some 0)).alignment_status = "unknown" ∧
    (check_numa_alignment [0] ["d".toList] [(0, [1])]
      (fun _ => some 0)).alignment_status ∉
      (["aligned", "misaligned", "error"] : List String) := by
  exact ⟨by decide, by decide⟩

/-- **C5 (amended).** For every non-empty container CPU set, non-empty PCI
device list and NUMA topology **at least one of whose nodes intersects the
container's CPUs**: the verdict is "aligned" iff every device resolves to a
node in the touched set (equivalently, no errors and every device aligned);
"misaligned" iff at least one device resolves to a node outside the touched
set; and "error" iff some device is unresolved and none is misaligned — in
particular an unresolvable device always prevents "aligned".  (When no node
is touched the engine instead returns early with status `"unknown"`.) -/
theorem C5_numa_alignment (cpus : List ℕ) (devices : List (List Char))
    (topo : List (ℕ × List ℕ)) (look : List Char → Option ℤ)
    (hc : cpus ≠ []) (hd : devices ≠ []) (htn : touchedNumaNodes cpus topo ≠ []) :
    ((check_numa_alignment cpus devices topo look).alignment_status = "aligned" ↔
      ∀ d ∈ devices, ∃ n, look d = some n ∧
        n ∈ (touchedNumaNodes cpus topo).map (fun k => (k : ℤ)))
    ∧ ((check_numa_alignment cpus devices topo look).alignment_status = "misaligned" ↔
      ∃ d ∈ devices, ∃ n, look d = some n ∧
        n ∉ (touchedNumaNodes cpus topo).map (fun k => (k : ℤ)))
    ∧ ((check_numa_alignment cpus devices topo look).alignment_status = "error" ↔
      ((∃ d ∈ devices, look d = none) ∧
        ¬∃ d ∈ devices, ∃ n, look d = some n ∧
          n ∉ (touchedNumaNodes cpus topo).map (fun k => (k : ℤ))))
    ∧ (∀ d ∈ devices, look d = none →
        (check_numa_alignment cpus devices topo look).alignment_status ≠ "aligned") := by
  obtain ⟨h1, h2, h3, h4, h5, h6⟩ :=
    numaDevLoop_spec (touchedNumaNodes cpus topo) look devices
      ({ container_numa_nodes := touchedNumaNodes cpus topo, pci_numa_info := [],
         alignment_status := "unknown", misaligned_devices := [],
         aligned_devices := [], errors := [] }, true)
  by_cases hall : devices.all (devAligned (touchedNumaNodes cpus topo) look) = true
  · have hAll : ∀ d ∈ devices, ∃ n, look d = some n ∧
        n ∈ (touchedNumaNodes cpus topo).map (fun k => (k : ℤ)) := by
      intro d hd'
      exact (devAligned_iff _ _ _).mp (List.all_eq_true.mp hall d hd')
    have herr : devices.filter (fun d => look d = none) = [] := by
      rw [List.filter_eq_nil_iff]
      intro d hd'
      obtain ⟨n, hn, -⟩ := hAll d hd'
      simp [hn]
    have hstat : (check_numa_alignment cpus devices topo look).alignment_status =
        "aligned" := by
      simp only [check_numa_alignment, if_neg hc, if_neg hd, if_neg htn]
      simp [h1, h3, h5, h6, hall, herr]
    refine ⟨?_, ?_, ?_, ?_⟩
    · rw [hstat]
      simpa using hAll
    · rw [hstat]
      simp only [show ("aligned" : String) = "misaligned" ↔ False by simp, false_iff]
      rintro ⟨d, hd', n, hn, hnot⟩
      obtain ⟨n', hn', hmem⟩ := hAll d hd'
      rw [hn] at hn'
      cases hn'
      exact hnot hmem
    · rw [hstat]
      simp only [show ("aligned" : String) = "error" ↔ False by simp, false_iff]
      rintro ⟨⟨d, hd', hnone⟩, -⟩
      obtain ⟨n, hn, -⟩ := hAll d hd'
      rw [hn] at hnone
      cases hnone
    · intro d hd' hnone
      obtain ⟨n, hn, -⟩ := hAll d hd'
      rw [hn] at hnone
      cases hnone
  · have hallb : devices.all (devAligned (touchedNumaNodes cpus topo) look) = false :=
      Bool.eq_false_iff.mpr hall
    by_cases hmis :
        devices.filter (devMisaligned (touchedNumaNodes cpus topo) look) = []
    · have hunres : ∃ d ∈ devices, look d = none := by
        have hnall : ¬∀ d ∈ devices,
            devAligned (touchedNumaNodes cpus topo) look d = true := by
          intro hfor
          exact hall (List.all_eq_true.mpr hfor)
        push_neg at hnall
        obtain ⟨d, hd', hna⟩ := hnall
        have hna' : devAligned (touchedNumaNodes cpus topo) look d = false :=
          Bool.eq_false_iff.mpr hna
        have hnm : devMisaligned (touchedNumaNodes cpus topo) look d = false :=
          Bool.eq_false_iff.mpr (List.filter_eq_nil_iff.mp hmis d hd')
        exact ⟨d, hd', dev_not_aligned_not_misaligned _ _ _ hna' hnm⟩
      have hnomis : ¬∃ d ∈ devices, ∃ n, look d = some n ∧
          n ∉ (touchedNumaNodes cpus topo).map (fun k => (k : ℤ)) := by
        rintro ⟨d, hd', n, hn, hnot⟩
        exact (List.filter_eq_nil_iff.mp hmis d hd')
          ((devMisaligned_iff _ _ _).mpr ⟨n, hn, hnot⟩)
      have hstat : (check_numa_alignment cpus devices topo look).alignment_status =
          "error" := by
        simp only [check_numa_alignment, if_neg hc, if_neg hd, if_neg htn]
        simp [h1, h3, h5, h6, hallb, hmis]
      refine ⟨?_, ?_, ?_, ?_⟩
      · rw [hstat]
        simp only [show ("error" : String) = "aligned" ↔ False by simp, false_iff]
        intro hAll'
        exact hall (List.all_eq_true.mpr (fun d hd' =>
          (devAligned_iff _ _ _).mpr (hAll' d hd')))
      · rw [hstat]
        simp only [show ("error" : String) = "misaligned" ↔ False by simp, false_iff]
        exact hnomis
      · rw [hstat]
        constructor
        · intro _
          exact ⟨hunres, hnomis⟩
        · intro _
          rfl
      · intro d hd' hnone
        rw [hstat]
        simp
    · have hmis' : ∃ d ∈ devices, ∃ n, look d = some n ∧
          n ∉ (touchedNumaNodes cpus topo).map (fun k => (k : ℤ)) := by
        obtain ⟨d, hdmem⟩ := List.exists_mem_of_ne_nil _ hmis
        have hdm := List.mem_filter.mp hdmem
        exact ⟨d, hdm.1, (devMisaligned_iff _ _ _).mp hdm.2⟩
      have hstat : (check_numa_alignment cpus devices topo look).alignment_status =
          "misaligned" := by
        simp only [check_numa_alignment, if_neg hc, if_neg hd, if_neg htn]
        simp [h1, h3, h5, h6, hallb, hmis]
      refine ⟨?_, ?_, ?_, ?_⟩
      · rw [hstat]
        simp only [show ("misaligned" : String) = "aligned" ↔ False by simp, false_iff]
        intro hAll'
        exact hall (List.all_eq_true.mpr (fun d hd' =>
          (devAligned_iff _ _ _).mpr (hAll' d hd')))
      · rw [hstat]
        constructor
        · intro _
          exact hmis'
        · intro _
          rfl
      · rw [hstat]
        simp only [show ("misaligned" : String) = "error" ↔ False by simp, false_iff]
        rintro ⟨-, hno⟩
        exact hno hmis'
      · intro d hd' hnone
        rw [hstat]
        simp

/-- Witness for C5: one device resolving to the (only) touched node 0 is
"aligned"; adding a device whose node cannot be resolved prevents "aligned"
even though the other device aligns. -/
theorem C5_numa_alignment_witness :
    (check_numa_alignment [0] ["a".toList] [(0, [0])]
      (fun _ => some 0)).alignment_status = "aligned" ∧
    (check_numa_alignment [0] ["a".toList, "b".toList] [(0, [0])]
      (fun d => if d = "a".toList then some 0 else none)).alignment_status ≠
      "aligned" := by
  constructor
  · exact (C5_numa_alignment [0] ["a".toList] [(0, [0])] (fun _ => some 0)
      (by decide) (by decide) (by decide)).1.mpr
      (fun d _ => ⟨0, rfl, by decide⟩)
  · exact (C5_numa_alignment [0] ["a".toList, "b".toList] [(0, [0])]
      (fun d => if d = "a".toList then some 0 else none)
      (by decide) (by decide) (by decide)).2.2.2 "b".toList (by decide) (by decide)

/-! ## Claim C9 — read-once memoization -/

/-- Insert-then-lookup on the dictionary model. -/
theorem lookupA_insertA {α β : Type} [DecidableEq α] (k : α) (v : β) :
    ∀ l : List (α × β), lookupA (insertA k v l) k = some v := by
  intro l
  induction l with
  | nil => simp [insertA, lookupA]
  | cons p ps ih =>
    by_cases h : p.1 = k
    · simp [insertA, h, lookupA]
    · simp only [insertA, if_neg h]
      simpa [lookupA, h] using ih

/-- Counterexample to C9 as stated: the LLC analyzer's own topology loader
(`llc_analyzer.get_llc_topology`, used per container by
`analyze_container_llc_alignment`) consults no cache — two loads for the
same snapshot source perform two filesystem scans, not at most one. -/
theorem C9_counterexample :
    (llcAnalyzer_get_llc_topology (some "sos".toList)
      (llcAnalyzer_get_llc_topology (some "sos".toList)
        { fsContainers := fun _ => none, fsNuma := fun _ => [],
          fsLlc := fun _ => ([], []), containerCache := [],
          cacheInitialized := false, numaCache := [], llcCache := [],
          fsReads := 0 }).2).2.fsReads = 2 ∧ (2 : ℕ) ≠ 1 := by
  exact ⟨rfl, by decide⟩

/-- **C9 (amended).** The `shared_data` loaders are read-once memoized per
snapshot source: loading container data a second time for the same source
returns structurally identical data with no further filesystem read
(provided, for the container registry in snapshot mode, that the source's
container directory exists — a missing directory is never cached and is
re-probed), and likewise for the shared NUMA and LLC topology providers
(unconditionally).  The LLC analyzer's own `get_llc_topology`, however,
re-scans on every call (see the counterexample). -/
theorem C9_memoization (w : CacheWorld) (bd : Option (List Char))
    (hdir : bd ≠ none → w.fsContainers bd ≠ none) :
    ((load_all_container_data bd (load_all_container_data bd w).2).1 =
        (load_all_container_data bd w).1 ∧
      (load_all_container_data bd (load_all_container_data bd w).2).2.fsReads =
        (load_all_container_data bd w).2.fsReads)
    ∧ ((get_numa_topology bd (get_numa_topology bd w).2).1 =
        (get_numa_topology bd w).1 ∧
      (get_numa_topology bd (get_numa_topology bd w).2).2.fsReads =
        (get_numa_topology bd w).2.fsReads)
    ∧ ((shared_get_llc_topology bd (shared_get_llc_topology bd w).2).1 =
        (shared_get_llc_topology bd w).1 ∧
      (shared_get_llc_topology bd (shared_get_llc_topology bd w).2).2.fsReads =
        (shared_get_llc_topology bd w).2.fsReads) := by
  refine ⟨?_, ?_, ?_⟩
  · cases hci : w.cacheInitialized with
    | true =>
      cases hlk : lookupA w.containerCache bd with
      | some cached => simp [load_all_container_data, hci, hlk]
      | none =>
        cases bd with
        | none =>
          simp [load_all_container_data, hci, hlk, lookupA_insertA]
        | some s =>
          obtain ⟨data, hdata⟩ := Option.ne_none_iff_exists'.mp (hdir (by simp))
          simp [load_all_container_data, hci, hlk, hdata, lookupA_insertA]
    | false =>
      cases bd with
      | none =>
        simp [load_all_container_data, hci, lookupA_insertA]
      | some s =>
        obtain ⟨data, hdata⟩ := Option.ne_none_iff_exists'.mp (hdir (by simp))
        simp [load_all_container_data, hci, hdata, lookupA_insertA]
  · cases hlk : lookupA w.numaCache (cacheKey bd) with
    | some cached => simp [get_numa_topology, hlk]
    | none => simp [get_numa_topology, hlk, lookupA_insertA]
  · cases hlk : lookupA w.llcCache (cacheKey bd) with
    | some cached => simp [shared_get_llc_topology, hlk]
    | none => simp [shared_get_llc_topology, hlk, lookupA_insertA]

/-- Witness for C9 at a concrete world: loading twice from a source whose
container directory exists. -/
theorem C9_memoization_witness :
    ((load_all_container_data (some "sos".toList)
        (load_all_container_data (some "sos".toList)
          { fsContainers := fun _ => some [("c1".toList, 7)], fsNuma := fun _ => [],
            fsLlc := fun _ => ([], []), containerCache := [],
            cacheInitialized := false, numaCache := [], llcCache := [],
            fsReads := 0 }).2).1 =
      (load_all_container_data (some "sos".toList)
        { fsContainers := fun _ => some [("c1".toList, 7)], fsNuma := fun _ => [],
          fsLlc := fun _ => ([], []), containerCache := [],
          cacheInitialized := false, numaCache := [], llcCache := [],
          fsReads := 0 }).1) ∧
    ((load_all_container_data (some "sos".toList)
        (load_all_container_data (some "sos".toList)
          { fsContainers := fun _ => some [("c1".toList, 7)], fsNuma := fun _ => [],
            fsLlc := fun _ => ([], []), containerCache := [],
            cacheInitialized := false, numaCache := [], llcCache := [],
            fsReads := 0 }).2).2.fsReads =
      (load_all_container_data (some "sos".toList)
        { fsContainers := fun _ => some [("c1".toList, 7)], fsNuma := fun _ => [],
          fsLlc := fun _ => ([], []), containerCache := [],
          cacheInitialized := false, numaCache := [], llcCache := [],
          fsReads := 0 }).2.fsReads) := by
  exact (C9_memoization
    { fsContainers := fun _ => some [("c1".toList, 7)], fsNuma := fun _ => [],
      fsLlc := fun _ => ([], []), containerCache := [],
      cacheInitialized := false, numaCache := [], llcCache := [],
      fsReads := 0 } (some "sos".toList) (fun _ => by simp)).1

/-! ## Claim C7 — parser tolerance -/

/-- The values contributed by the well-formed (pure-digit) tokens of a
dash-free CPU range string, every other token being skipped. -/
def dashFreeTokenValues (s : List Char) : List ℤ :=
  (splitOnChar ',' s).flatMap (fun p =>
    if pyIsDigit (trim p) then [(digitsVal (trim p) : ℤ)] else [])

/-- Characters of a split piece come from the split string. -/
theorem splitOnChar_subset (c : Char) :
    ∀ (s : List Char) (p : List Char), p ∈ splitOnChar c s → ∀ x ∈ p, x ∈ s := by
  intro s
  induction s with
  | nil =>
    intro p hp x hx
    simp [splitOnChar] at hp
    subst hp
    simp at hx
  | cons a as ih =>
    intro p hp x hx
    simp only [splitOnChar] at hp
    match hsp : splitOnChar c as with
    | [] =>
      rw [hsp] at hp
      have hp' : p ∈ [[a]] := hp
      simp at hp'
      subst hp'
      simp at hx
      simp [hx]
    | y :: ys =>
      rw [hsp] at hp
      have hp' : p ∈ (if a = c then ([] : List Char) :: y :: ys else (a :: y) :: ys) :=
        hp
      by_cases hac : a = c
      · rw [if_pos hac] at hp'
        rcases List.mem_cons.mp hp' with rfl | hq
        · simp at hx
        · have := ih p (by rw [hsp]; exact hq) x hx
          simp [this]
      · rw [if_neg hac] at hp'
        rcases List.mem_cons.mp hp' with rfl | hq
        · rcases List.mem_cons.mp hx with rfl | hx'
          · simp
          · have := ih y (by rw [hsp]; exact List.mem_cons_self y ys) x hx'
            simp [this]
        · have := ih p (by rw [hsp]; exact List.mem_cons.mpr (Or.inr hq)) x hx
          simp [this]

/-- Characters of the stripped string come from the original. -/
theorem trim_subset (l : List Char) : ∀ x ∈ trim l, x ∈ l := by
  intro x hx
  unfold trim at hx
  rw [List.mem_reverse] at hx
  have h1 := (List.dropWhile_sublist (l := (l.dropWhile pyIsSpace).reverse)
    (p := pyIsSpace)).subset hx
  rw [List.mem_reverse] at h1
  exact (List.dropWhile_sublist (l := l) (p := pyIsSpace)).subset h1

/-- The token loop never fails on dash-free tokens: non-digit tokens are
skipped, digit tokens contribute their value. -/
theorem parseGo_nodash :
    ∀ (ps : List (List Char)) (acc : List ℤ), (∀ p ∈ ps, ('-' : Char) ∉ trim p) →
      parseGo ps acc = some (acc ++ ps.flatMap (fun p =>
        if pyIsDigit (trim p) then [(digitsVal (trim p) : ℤ)] else [])) := by
  intro ps
  induction ps with
  | nil => intro acc _; simp [parseGo]
  | cons p ps ih =>
    intro acc hnd
    have hnp : ('-' : Char) ∉ trim p := hnd p (by simp)
    have htok : parseToken p =
        some (if pyIsDigit (trim p) then [(digitsVal (trim p) : ℤ)] else []) := by
      simp only [parseToken, if_neg hnp]
      by_cases hdig : pyIsDigit (trim p) = true
      · simp [hdig]
      · simp [hdig]
    simp only [parseGo, htok]
    rw [ih (acc ++ _) (fun q hq => hnd q (by simp [hq]))]
    simp

/-- Counterexample to C7 as stated: the parser is *not* exception-free on
every input — a malformed dash token raises `ValueError` (uncaught), e.g.
`"1-2-3"` (unpacking three pieces) and `"a-b"` (non-numeric bounds). -/
theorem C7_counterexample :
    parse_cpu_range "1-2-3".toList = none ∧ parse_cpu_range "a-b".toList = none := by
  exact ⟨by decide, by decide⟩

/-- **C7 (amended).** `parse("")`, `parse("null")` and `parse("empty")` give
the empty set, and on every **dash-free ASCII** input string the parser
silently skips malformed (non-digit) tokens and returns the values of the
well-formed tokens, never raising.  Two malformations do raise an uncaught
`ValueError`: a malformed dash-containing token (see the counterexample),
and — outside the ASCII scope of this theorem — a token of non-ASCII Unicode
digit characters such as `"\u00b2"` (superscript two), which passes the
`isdigit()` guard yet makes `int(...)` raise. -/
theorem C7_parser_tolerance_amended :
    parse_cpu_range [] = some [] ∧
    parse_cpu_range "null".toList = some [] ∧
    parse_cpu_range "empty".toList = some [] ∧
    (∀ s : List Char, ('-' : Char) ∉ s → (∀ c ∈ s, c.toNat < 128) →
      parse_cpu_range s = some (dashFreeTokenValues s)) := by
  refine ⟨by decide, by decide, by decide, ?_⟩
  intro s hnd _
  by_cases h0 : s = [] ∨ s = "null".toList ∨ s = "empty".toList
  · rcases h0 with rfl | rfl | rfl <;> decide
  · rw [parse_cpu_range, if_neg h0]
    unfold dashFreeTokenValues
    rw [parseGo_nodash (splitOnChar ',' s) []]
    · simp
    · intro p hp hmem
      exact hnd (splitOnChar_subset ',' s p hp '-' (trim_subset p '-' hmem))

/-- Witness for C7: a string with a junk token, a padded digit token and a
plain digit token parses to exactly the well-formed values. -/
theorem C7_parser_tolerance_amended_witness :
    parse_cpu_range "foo, 7 ,8".toList = some [7, 8] ∧
    dashFreeTokenValues "foo, 7 ,8".toList = [7, 8] := by
  have h := C7_parser_tolerance_amended.2.2.2 "foo, 7 ,8".toList (by decide) (by decide)
  exact ⟨h.trans (by decide), by decide⟩

/-! ## Claim C3 — round-trip of the CPU range codec

Supporting lemmas: decimal rendering, trimming, splitting/joining, chunk
decomposition, token parsing. -/

/-- `digitToChar` of a digit value is a digit character with that value. -/
theorem charVal_digitToChar (d : ℕ) (hd : d < 10) :
    charVal (digitToChar d) = d ∧ isDigitChar (digitToChar d) = true := by
  interval_cases d <;> exact ⟨by decide, by decide⟩

/-- Splitting the digit-string fold over a final character. -/
theorem digitsVal_append (l : List Char) (c : Char) :
    digitsVal (l ++ [c]) = digitsVal l * 10 + charVal c := by
  simp [digitsVal, List.foldl_append]

/-- Fuelled rendering correctness: with enough fuel, the rendering of `n`
is non-empty, consists of digit characters and evaluates back to `n`. -/
theorem renderNatAux_spec :
    ∀ (fuel n : ℕ), n < fuel →
      renderNatAux fuel n ≠ [] ∧ (∀ c ∈ renderNatAux fuel n, isDigitChar c = true) ∧
      digitsVal (renderNatAux fuel n) = n := by
  intro fuel
  induction fuel with
  | zero => intro n hn; omega
  | succ fuel ih =>
    intro n hn
    by_cases h10 : n < 10
    · refine ⟨by simp [renderNatAux, h10], ?_, ?_⟩
      · intro c hc
        simp only [renderNatAux, if_pos h10, List.mem_singleton] at hc
        subst hc
        exact (charVal_digitToChar n h10).2
      · simp only [renderNatAux, if_pos h10]
        have := (charVal_digitToChar n h10).1
        simp [digitsVal, this]
    · have hdiv : n / 10 < fuel := by
        have := Nat.div_lt_self (by omega : 0 < n) (by omega : 1 < 10)
        omega
      obtain ⟨hne, hdig, hval⟩ := ih (n / 10) hdiv
      have hmod : n % 10 < 10 := Nat.mod_lt _ (by omega)
      refine ⟨by simp [renderNatAux, h10], ?_, ?_⟩
      · intro c hc
        simp only [renderNatAux, if_neg h10, List.mem_append, List.mem_singleton] at hc
        rcases hc with hc | hc
        · exact hdig c hc
        · subst hc
          exact (charVal_digitToChar _ hmod).2
      · simp only [renderNatAux, if_neg h10, digitsVal_append, hval,
          (charVal_digitToChar _ hmod).1]
        omega

/-- `str(n)` is non-empty. -/
theorem renderNat_ne_nil (n : ℕ) : renderNat n ≠ [] :=
  (renderNatAux_spec (n + 1) n (by omega)).1

/-- `str(n)` consists of decimal digits. -/
theorem renderNat_digits (n : ℕ) : ∀ c ∈ renderNat n, isDigitChar c = true :=
  (renderNatAux_spec (n + 1) n (by omega)).2.1

/-- Evaluating the digits of `str(n)` gives back `n`. -/
theorem digitsVal_renderNat (n : ℕ) : digitsVal (renderNat n) = n :=
  (renderNatAux_spec (n + 1) n (by omega)).2.2

/-- A digit character is not whitespace and is none of the codec's
structural characters. -/
theorem isDigitChar_facts (c : Char) (h : isDigitChar c = true) :
    pyIsSpace c = false ∧ c ≠ '-' ∧ c ≠ ',' ∧ c ≠ ':' ∧ c ≠ '+' ∧
      c ≠ 'n' ∧ c ≠ 'e' := by
  have hb : 48 ≤ c.toNat ∧ c.toNat ≤ 57 := by
    simpa [isDigitChar] using h
  refine ⟨?_, ?_, ?_, ?_, ?_, ?_, ?_⟩
  · rw [pyIsSpace, decide_eq_false_iff_not]
    omega
  all_goals intro h'; subst h'; exact absurd hb (by decide)

/-- `dropWhile` is the identity when no character satisfies the predicate. -/
theorem dropWhile_eq_self_of (p : Char → Bool) :
    ∀ l : List Char, (∀ c ∈ l, p c = false) → l.dropWhile p = l := by
  intro l h
  cases l with
  | nil => rfl
  | cons a as => simp [List.dropWhile_cons, h a (by simp)]

/-- `strip` is the identity on whitespace-free strings. -/
theorem trim_eq_self_of (l : List Char) (h : ∀ c ∈ l, pyIsSpace c = false) :
    trim l = l := by
  unfold trim
  rw [dropWhile_eq_self_of _ l h,
    dropWhile_eq_self_of _ l.reverse (fun c hc => h c (List.mem_reverse.mp hc)),
    List.reverse_reverse]

/-- `strip` is the identity on `str(n)`. -/
theorem trim_renderNat (n : ℕ) : trim (renderNat n) = renderNat n :=
  trim_eq_self_of _ (fun c hc => (isDigitChar_facts c (renderNat_digits n c hc)).1)

/-- `int(str(n)) = n`. -/
theorem pyInt_renderNat (n : ℕ) : pyInt (renderNat n) = some (n : ℤ) := by
  obtain ⟨c, cs, hcc⟩ : ∃ c cs, renderNat n = c :: cs := by
    cases h : renderNat n with
    | nil => exact absurd h (renderNat_ne_nil n)
    | cons c cs => exact ⟨c, cs, rfl⟩
  have hfacts := isDigitChar_facts c (renderNat_digits n c (by simp [hcc]))
  have hdig : pyIsDigit (c :: cs) = true := by
    simp only [pyIsDigit, Bool.and_eq_true, List.all_eq_true]
    exact ⟨by simp, fun x hx => renderNat_digits n x (by simp [hcc, List.mem_cons] at hx ⊢; tauto)⟩
  rw [pyInt, trim_renderNat, hcc]
  simp only [if_neg hfacts.2.2.2.2.1, if_neg hfacts.2.1, hdig, if_true]
  rw [← hcc, digitsVal_renderNat]

/-- Unfolding equation for `splitOnChar` on a cons cell. -/
theorem splitOnChar_cons_eq (c a : Char) (as : List Char) :
    splitOnChar c (a :: as) =
      match splitOnChar c as with
      | [] => [[a]]
      | y :: ys => if a = c then [] :: y :: ys else (a :: y) :: ys := rfl

/-- `split` always yields at least one piece. -/
theorem splitOnChar_ne_nil (c : Char) : ∀ s : List Char, splitOnChar c s ≠ [] := by
  intro s
  cases s with
  | nil => simp [splitOnChar]
  | cons a as =>
    rw [splitOnChar_cons_eq]
    cases h : splitOnChar c as with
    | nil => simp
    | cons y ys =>
      by_cases hac : a = c
      · simp [hac]
      · simp [hac]

/-- Splitting a string not containing the separator gives it back whole. -/
theorem splitOnChar_nomem (c : Char) :
    ∀ s : List Char, c ∉ s → splitOnChar c s = [s] := by
  intro s
  induction s with
  | nil => intro _; rfl
  | cons a as ih =>
    intro h
    have hne : a ≠ c := fun he => h (by simp [he])
    have has : c ∉ as := fun hm => h (by simp [hm])
    rw [splitOnChar_cons_eq, ih has]
    simp [hne]

/-- Splitting distributes over a separator occurrence whose left part is
separator-free. -/
theorem splitOnChar_append (c : Char) :
    ∀ s t : List Char, c ∉ s → splitOnChar c (s ++ c :: t) = s :: splitOnChar c t := by
  intro s
  induction s with
  | nil =>
    intro t _
    rw [List.nil_append, splitOnChar_cons_eq]
    cases h : splitOnChar c t with
    | nil => exact absurd h (splitOnChar_ne_nil c t)
    | cons y ys => simp
  | cons a as ih =>
    intro t h
    have hne : a ≠ c := fun he => h (by simp [he])
    have has : c ∉ as := fun hm => h (by simp [hm])
    rw [List.cons_append, splitOnChar_cons_eq, ih t has]
    simp [hne]

/-- `joinComma` of a cons decomposes into the head and something. -/
theorem joinComma_cons (t : List Char) (ts : List (List Char)) :
    joinComma (t :: ts) = t ++ (if ts = [] then [] else ',' :: joinComma ts) := by
  cases ts with
  | nil => simp [joinComma]
  | cons u us => simp [joinComma]

/-- `",".join` then `split(',')` is the identity on non-empty, comma-free
token lists. -/
theorem splitOnChar_joinComma :
    ∀ ts : List (List Char), ts ≠ [] → (∀ t ∈ ts, (',' : Char) ∉ t) →
      splitOnChar ',' (joinComma ts) = ts := by
  intro ts
  induction ts with
  | nil => intro h _; exact absurd rfl h
  | cons t us ih =>
    intro _ hfree
    cases us with
    | nil =>
      show splitOnChar ',' (joinComma [t]) = [t]
      rw [show joinComma [t] = t from rfl]
      exact splitOnChar_nomem ',' t (hfree t (by simp))
    | cons u vs =>
      rw [show joinComma (t :: u :: vs) = t ++ ',' :: joinComma (u :: vs) from rfl]
      rw [splitOnChar_append ',' t _ (hfree t (by simp))]
      rw [ih (by simp) (fun q hq => hfree q (by simp [hq]))]

/-- Joining two non-empty token lists. -/
theorem joinComma_append (A B : List (List Char)) (hA : A ≠ []) (hB : B ≠ []) :
    joinComma (A ++ B) = joinComma A ++ ',' :: joinComma B := by
  obtain ⟨b, bs, rfl⟩ : ∃ b bs, B = b :: bs := by
    cases B with
    | nil => exact absurd rfl hB
    | cons b bs => exact ⟨b, bs, rfl⟩
  clear hB
  induction A with
  | nil => exact absurd rfl hA
  | cons t us ih =>
    cases us with
    | nil => rfl
    | cons u vs =>
      show t ++ ',' :: joinComma ((u :: vs) ++ b :: bs) =
        (t ++ ',' :: joinComma (u :: vs)) ++ ',' :: joinComma (b :: bs)
      rw [ih (by simp)]
      simp

/-- Membership of a token's characters in the joined string. -/
theorem mem_joinComma (x : Char) :
    ∀ (ts : List (List Char)) (t : List Char), t ∈ ts → x ∈ t → x ∈ joinComma ts := by
  intro ts
  induction ts with
  | nil => intro t ht _; simp at ht
  | cons u us ih =>
    intro t ht hx
    rw [joinComma_cons]
    rcases List.mem_cons.mp ht with rfl | ht'
    · exact List.mem_append.mpr (Or.inl hx)
    · have hu : us ≠ [] := fun h => by simp [h] at ht'
      rw [if_neg hu]
      exact List.mem_append.mpr (Or.inr (by simp [ih t ht' hx]))

/-- Flattening nested joins: joining the per-chunk joins equals joining the
flattened token list. -/
theorem joinComma_flatten :
    ∀ ts : List (List (List Char)), (∀ t ∈ ts, t ≠ []) →
      joinComma (ts.map joinComma) = joinComma ts.flatten := by
  intro ts
  induction ts with
  | nil => intro _; rfl
  | cons t us ih =>
    intro hne
    cases us with
    | nil => simp [joinComma]
    | cons u vs =>
      have hts : t ≠ [] := hne t (by simp)
      have hflat : (u :: vs).flatten ≠ [] := by
        have hu : u ≠ [] := hne u (by simp)
        cases u with
        | nil => exact absurd rfl hu
        | cons w ws => simp
      rw [show (t :: u :: vs).map joinComma =
        joinComma t :: (u :: vs).map joinComma from rfl]
      rw [joinComma_cons, if_neg (by simp : ¬((u :: vs).map joinComma = []))]
      rw [ih (fun q hq => hne q (by simp [hq]))]
      rw [show (t :: u :: vs).flatten = t ++ (u :: vs).flatten from rfl]
      rw [joinComma_append t _ hts hflat]

/-- The inner `while` loop consumes exactly an arithmetic run: the returned
end value is `cur + k·step` and the input splits into that run and the
remainder. -/
theorem takeRun_spec :
    ∀ (l : List ℕ) (cur s : ℕ), ∃ k, (takeRun cur s l).1 = cur + k * s ∧
      l = List.range' (cur + s) k s ++ (takeRun cur s l).2 := by
  intro l
  induction l with
  | nil => intro cur s; exact ⟨0, by simp [takeRun], by simp [takeRun, List.range']⟩
  | cons x xs ih =>
    intro cur s
    by_cases hx : x = cur + s
    · obtain ⟨k, h1, h2⟩ := ih x s
      have hstep : takeRun cur s (x :: xs) = takeRun x s xs := by
        simp [takeRun, hx]
      refine ⟨k + 1, ?_, ?_⟩
      · rw [hstep, h1, hx]
        ring
      · rw [hstep, show List.range' (cur + s) (k + 1) s =
          (cur + s) :: List.range' (cur + s + s) k s from rfl]
        rw [← hx]
        simp only [List.cons_append, List.cons.injEq, true_and]
        exact h2
    · have hstep : takeRun cur s (x :: xs) = (cur, x :: xs) := by
        simp [takeRun, hx]
      exact ⟨0, by simp [hstep], by simp [hstep, List.range']⟩

/-- The remainder after a run is no longer than the input. -/
theorem takeRun_snd_length (l : List ℕ) (cur s : ℕ) :
    (takeRun cur s l).2.length ≤ l.length := by
  obtain ⟨k, -, h2⟩ := takeRun_spec l cur s
  calc (takeRun cur s l).2.length
      ≤ (List.range' (cur + s) k s).length + (takeRun cur s l).2.length := by omega
    _ = l.length := by rw [← List.length_append, ← h2]

/-- `chunksOfAux` on the empty list. -/
theorem chunksOfAux_nil (fuel : ℕ) : chunksOfAux fuel [] = [] := by
  cases fuel <;> rfl

/-- The fuel of `chunksOfAux` is irrelevant once it covers the length. -/
theorem chunksOfAux_congr :
    ∀ (f1 : ℕ) (l : List ℕ) (f2 : ℕ), l.length ≤ f1 → l.length ≤ f2 →
      chunksOfAux f1 l = chunksOfAux f2 l := by
  intro f1
  induction f1 with
  | zero =>
    intro l f2 h1 _
    have hl0 : l = [] := List.length_eq_zero.mp (by omega)
    rw [hl0, chunksOfAux_nil, chunksOfAux_nil]
  | succ f1 ih =>
    intro l f2 h1 h2
    cases l with
    | nil => rw [chunksOfAux_nil, chunksOfAux_nil]
    | cons a rest =>
      obtain ⟨g, rfl⟩ : ∃ g, f2 = g + 1 := by
        cases f2 with
        | zero => simp at h2
        | succ g => exact ⟨g, rfl⟩
      show (a, _, _) :: chunksOfAux f1 _ = (a, _, _) :: chunksOfAux g _
      have hlen := takeRun_snd_length rest a (detectStep (a :: rest))
      rw [ih _ g (by simp at h1; omega) (by simp at h2; omega)]

/-- One-step unfolding of `chunksOf` on a cons cell. -/
theorem chunksOf_cons (a : ℕ) (rest : List ℕ) :
    chunksOf (a :: rest) =
      (a, (takeRun a (detectStep (a :: rest)) rest).1, detectStep (a :: rest)) ::
        chunksOf (takeRun a (detectStep (a :: rest)) rest).2 := by
  show chunksOfAux (rest.length + 1) (a :: rest) = _
  have hlen := takeRun_snd_length rest a (detectStep (a :: rest))
  show (a, _, _) :: chunksOfAux rest.length _ = _
  rw [chunksOfAux_congr rest.length _ _ hlen (le_refl _)]
  rfl

/-- The detected step on a strictly ascending list is positive. -/
theorem detectStep_pos (l : List ℕ) (hl : l.Sorted (· < ·)) : 1 ≤ detectStep l := by
  match l with
  | [] => simp [detectStep]
  | [a] => simp [detectStep]
  | [a, b] => simp [detectStep]
  | a :: b :: c :: rest =>
    have hab : a < b := (List.sorted_cons.mp hl).1 b (by simp)
    simp only [detectStep]
    split
    · omega
    · omega

/-- Decomposing a strictly ascending list into runs: every run has a
positive step, its end lies on the arithmetic progression from its start,
and the runs' elements concatenate back to the list. -/
theorem chunksOf_spec :
    ∀ (n : ℕ) (l : List ℕ), l.length ≤ n → l.Sorted (· < ·) →
      (∀ c ∈ chunksOf l, 1 ≤ c.2.2 ∧ ∃ k, c.2.1 = c.1 + k * c.2.2) ∧
      (chunksOf l).flatMap (fun c => stepSeq c.1 c.2.1 c.2.2) = l := by
  intro n
  induction n with
  | zero =>
    intro l h _
    have hl0 : l = [] := List.length_eq_zero.mp (by omega)
    rw [hl0]
    exact ⟨by simp [chunksOf, chunksOfAux_nil], by simp [chunksOf, chunksOfAux_nil]⟩
  | succ n ih =>
    intro l hlen hsort
    cases l with
    | nil => exact ⟨by simp [chunksOf, chunksOfAux_nil], by simp [chunksOf, chunksOfAux_nil]⟩
    | cons a rest =>
      have hs : 1 ≤ detectStep (a :: rest) := detectStep_pos _ hsort
      obtain ⟨k, h1, h2⟩ := takeRun_spec rest a (detectStep (a :: rest))
      have hremlen : (takeRun a (detectStep (a :: rest)) rest).2.length ≤ n := by
        have := takeRun_snd_length rest a (detectStep (a :: rest))
        simp at hlen
        omega
      have hremsort : (takeRun a (detectStep (a :: rest)) rest).2.Sorted (· < ·) := by
        have hsuffix : (takeRun a (detectStep (a :: rest)) rest).2 <:+ rest :=
          ⟨List.range' (a + detectStep (a :: rest)) k (detectStep (a :: rest)), h2.symm⟩
        exact ((List.sorted_cons.mp hsort).2).sublist hsuffix.sublist
      obtain ⟨ihgood, ihflat⟩ := ih _ hremlen hremsort
      rw [chunksOf_cons]
      constructor
      · intro c hc
        rcases List.mem_cons.mp hc with rfl | hc'
        · exact ⟨hs, k, h1⟩
        · exact ihgood c hc'
      · rw [List.flatMap_cons, ihflat]
        have hseq : stepSeq a (takeRun a (detectStep (a :: rest)) rest).1
            (detectStep (a :: rest)) =
            a :: List.range' (a + detectStep (a :: rest)) k (detectStep (a :: rest)) := by
          rw [stepSeq, h1]
          have : (a + k * detectStep (a :: rest) - a) / detectStep (a :: rest) = k := by
            rw [show a + k * detectStep (a :: rest) - a = k * detectStep (a :: rest) from
              by omega]
            exact Nat.mul_div_cancel k (by omega)
          rw [this]
          rfl
        rw [hseq, List.cons_append, ← h2]

/-- The comma-free tokens of one rendered run: the short-step branch lists
its numbers as separate tokens, every other branch is a single token. -/
def chunkTokens (st e s : ℕ) : List (List Char) :=
  if st = e then [renderNat st]
  else if s = 1 then [renderNat st ++ '-' :: renderNat e]
  else if s * 3 ≤ e - st then [fmtChunk st e s]
  else (stepSeq st e s).map renderNat

/-- The tokens of a chunk triple. -/
def chunkTokensOf (c : ℕ × ℕ × ℕ) : List (List Char) := chunkTokens c.1 c.2.1 c.2.2

/-- The CPU values one token contributes on successful parsing. -/
def tokVal (t : List Char) : List ℤ := (parseToken t).getD []

/-- A rendered run is the comma-join of its tokens. -/
theorem fmtChunk_eq_join (st e s : ℕ) :
    fmtChunk st e s = joinComma (chunkTokens st e s) := by
  unfold fmtChunk chunkTokens
  by_cases h1 : st = e
  · simp [h1, joinComma]
  · by_cases h2 : s = 1
    · simp [h1, h2, joinComma]
    · by_cases h3 : s * 3 ≤ e - st
      · simp [h1, h2, h3, joinComma, fmtChunk]
      · simp [h1, h2, h3]

/-- Every chunk has at least one token. -/
theorem chunkTokens_ne_nil (st e s : ℕ) : chunkTokens st e s ≠ [] := by
  unfold chunkTokens
  by_cases h1 : st = e
  · simp [h1]
  · by_cases h2 : s = 1
    · simp [h1, h2]
    · by_cases h3 : s * 3 ≤ e - st
      · simp [h1, h2, h3]
      · simp only [h1, h2, h3, if_false]
        rw [stepSeq, show List.range' st ((e - st) / s + 1) s =
          st :: List.range' (st + s) ((e - st) / s) s from rfl]
        simp

/-- The digit token `str(n)` parses to the single CPU `n`. -/
theorem parseToken_renderNat (n : ℕ) : parseToken (renderNat n) = some [(n : ℤ)] := by
  have hnd : ('-' : Char) ∉ renderNat n := fun hm =>
    (isDigitChar_facts '-' (renderNat_digits n '-' hm)).2.1 rfl
  have hdig : pyIsDigit (renderNat n) = true := by
    simp only [pyIsDigit, Bool.and_eq_true, List.all_eq_true]
    exact ⟨by simpa using renderNat_ne_nil n, fun c hc => renderNat_digits n c hc⟩
  simp only [parseToken, trim_renderNat, if_neg hnd, hdig, if_true, digitsVal_renderNat]

/-- The dash token `str(a) ++ "-" ++ str(b)` parses to `range(a, b+1)`. -/
theorem parseToken_dash (a b : ℕ) :
    parseToken (renderNat a ++ '-' :: renderNat b) =
      some (rangeZ (a : ℤ) ((b : ℤ) + 1)) := by
  have hnda : ('-' : Char) ∉ renderNat a := fun hm =>
    (isDigitChar_facts '-' (renderNat_digits a '-' hm)).2.1 rfl
  have hndb : ('-' : Char) ∉ renderNat b := fun hm =>
    (isDigitChar_facts '-' (renderNat_digits b '-' hm)).2.1 rfl
  have htrim : trim (renderNat a ++ '-' :: renderNat b) =
      renderNat a ++ '-' :: renderNat b := by
    apply trim_eq_self_of
    intro c hc
    rcases List.mem_append.mp hc with h | h
    · exact (isDigitChar_facts c (renderNat_digits a c h)).1
    · rcases List.mem_cons.mp h with rfl | h'
      · decide
      · exact (isDigitChar_facts c (renderNat_digits b c h')).1
  have hmem : ('-' : Char) ∈ renderNat a ++ '-' :: renderNat b := by simp
  have hsplit : splitOnChar '-' (renderNat a ++ '-' :: renderNat b) =
      [renderNat a, renderNat b] := by
    rw [splitOnChar_append '-' _ _ hnda, splitOnChar_nomem '-' _ hndb]
  simp only [parseToken, htrim, if_pos hmem, hsplit, pyInt_renderNat]

/-- `range(a, b+1)` over the integers is the cast of the natural range. -/
theorem rangeZ_natCast (a b : ℕ) :
    rangeZ (a : ℤ) ((b : ℤ) + 1) =
      (List.range' a (b + 1 - a) 1).map (fun n : ℕ => (n : ℤ)) := by
  have htn : (((b : ℤ) + 1) - a).toNat = b + 1 - a := by omega
  rw [rangeZ, htn, List.range'_eq_map_range, List.map_map]
  apply List.map_congr_left
  intro i _
  simp

/-- Tokens of a well-formed run without step notation: all comma-free, all
parse, and their values concatenate to the run's elements. -/
theorem chunkTokens_spec (st e s k : ℕ) (hs : 1 ≤ s) (hk : e = st + k * s)
    (hnc : (':' : Char) ∉ fmtChunk st e s) :
    (∀ t ∈ chunkTokens st e s, ((',' : Char) ∉ t) ∧ parseToken t = some (tokVal t)) ∧
    (chunkTokens st e s).flatMap tokVal =
      (stepSeq st e s).map (fun n : ℕ => (n : ℤ)) := by
  by_cases h1 : st = e
  · subst h1
    have hseq : stepSeq st st s = [st] := by
      rw [stepSeq, Nat.sub_self, Nat.zero_div]
      rfl
    rw [show chunkTokens st st s = [renderNat st] from by simp [chunkTokens]]
    refine ⟨?_, ?_⟩
    · intro t ht
      rw [List.mem_singleton] at ht
      subst ht
      refine ⟨fun hm => (isDigitChar_facts ',' (renderNat_digits st ',' hm)).2.2.1 rfl, ?_⟩
      rw [tokVal, parseToken_renderNat]
      rfl
    · rw [hseq]
      simp [tokVal, parseToken_renderNat]
  · by_cases h2 : s = 1
    · subst h2
      have hle : st ≤ e := by omega
      have htok : chunkTokens st e 1 = [renderNat st ++ '-' :: renderNat e] := by
        simp [chunkTokens, h1]
      rw [htok]
      refine ⟨?_, ?_⟩
      · intro t ht
        rw [List.mem_singleton] at ht
        subst ht
        constructor
        · intro hm
          rcases List.mem_append.mp hm with h | h
          · exact (isDigitChar_facts ',' (renderNat_digits st ',' h)).2.2.1 rfl
          · rcases List.mem_cons.mp h with h' | h'
            · exact absurd h' (by decide)
            · exact (isDigitChar_facts ',' (renderNat_digits e ',' h')).2.2.1 rfl
        · rw [tokVal, parseToken_dash]
          rfl
      · rw [List.flatMap_cons, List.flatMap_nil, List.append_nil, tokVal,
          parseToken_dash, Option.getD_some, rangeZ_natCast, stepSeq]
        rw [show (e - st) / 1 = e - st from Nat.div_one _,
          show e + 1 - st = e - st + 1 from by omega]
    · by_cases h3 : s * 3 ≤ e - st
      · exfalso
        apply hnc
        rw [fmtChunk, if_neg h1, if_neg h2, if_pos h3]
        by_cases h4 : s = 2 ∧ st % 2 = 0
        · rw [if_pos h4]
          simp only [List.mem_append]
          right
          decide
        · rw [if_neg h4]
          by_cases h5 : s = 2 ∧ st % 2 = 1
          · rw [if_pos h5]
            simp only [List.mem_append]
            right
            decide
          · rw [if_neg h5]
            simp
      · have htok : chunkTokens st e s = (stepSeq st e s).map renderNat := by
          simp [chunkTokens, h1, h2, h3]
        rw [htok]
        refine ⟨?_, ?_⟩
        · intro t ht
          obtain ⟨x, -, rfl⟩ := List.mem_map.mp ht
          refine ⟨fun hm =>
            (isDigitChar_facts ',' (renderNat_digits x ',' hm)).2.2.1 rfl, ?_⟩
          rw [tokVal, parseToken_renderNat]
          rfl
        · rw [List.flatMap_map]
          induction (stepSeq st e s) with
          | nil => rfl
          | cons y ys ih =>
            simp only [List.flatMap_cons, List.map_cons, ih]
            simp [tokVal, parseToken_renderNat]

/-- The token loop succeeds when every token parses, returning all values. -/
theorem parseGo_tokens :
    ∀ (ts : List (List Char)) (acc : List ℤ),
      (∀ t ∈ ts, parseToken t = some (tokVal t)) →
      parseGo ts acc = some (acc ++ ts.flatMap tokVal) := by
  intro ts
  induction ts with
  | nil => intro acc _; simp [parseGo]
  | cons t us ih =>
    intro acc h
    simp only [parseGo, h t (by simp)]
    rw [ih (acc ++ tokVal t) (fun q hq => h q (by simp [hq]))]
    simp

/-- Every chunk's first token starts with the rendering of its start. -/
theorem chunkTokens_head (st e s : ℕ) :
    ∃ suffix rest, chunkTokens st e s = (renderNat st ++ suffix) :: rest := by
  unfold chunkTokens
  by_cases h1 : st = e
  · exact ⟨[], [], by simp [h1]⟩
  · by_cases h2 : s = 1
    · exact ⟨'-' :: renderNat e, [], by simp [h1, h2]⟩
    · by_cases h3 : s * 3 ≤ e - st
      · rw [if_neg h1, if_neg h2, if_pos h3, fmtChunk, if_neg h1, if_neg h2, if_pos h3]
        by_cases h4 : s = 2 ∧ st % 2 = 0
        · exact ⟨'-' :: (renderNat e ++ ":2 (even)".toList), [],
            by rw [if_pos h4]; simp⟩
        · by_cases h5 : s = 2 ∧ st % 2 = 1
          · exact ⟨'-' :: (renderNat e ++ ":2 (odd)".toList), [],
              by rw [if_neg h4, if_pos h5]; simp⟩
          · exact ⟨'-' :: (renderNat e ++ ':' :: renderNat s), [],
              by rw [if_neg h4, if_neg h5]; simp⟩
      · rw [if_neg h1, if_neg h2, if_neg h3, stepSeq,
          show List.range' st ((e - st) / s + 1) s =
            st :: List.range' (st + s) ((e - st) / s) s from rfl]
        exact ⟨[], (List.range' (st + s) ((e - st) / s) s).map renderNat, by simp⟩

/-- Unfolding `format_cpu_list_range` on an (already sorted) two-or-more
element list. -/
theorem format_cons2_eq (a b : ℕ) (rest : List ℕ)
    (hins : (a :: b :: rest).insertionSort (· ≤ ·) = a :: b :: rest) :
    format_cpu_list_range (a :: b :: rest) =
      joinComma ((chunksOf (a :: b :: rest)).map (fun c => fmtChunk c.1 c.2.1 c.2.2)) := by
  have h : format_cpu_list_range (a :: b :: rest) =
      match (a :: b :: rest).insertionSort (· ≤ ·) with
      | [] => []
      | [x] => renderNat x
      | x :: y :: r =>
        joinComma ((chunksOf (x :: y :: r)).map (fun c => fmtChunk c.1 c.2.1 c.2.2)) := rfl
  rw [hins] at h
  exact h

/-- The formatted string of a sorted multi-element list is the comma-join of
all its chunks' tokens. -/
theorem format_cons2_toks (a b : ℕ) (rest : List ℕ)
    (hins : (a :: b :: rest).insertionSort (· ≤ ·) = a :: b :: rest) :
    format_cpu_list_range (a :: b :: rest) =
      joinComma ((chunksOf (a :: b :: rest)).flatMap chunkTokensOf) := by
  rw [format_cons2_eq a b rest hins]
  have h1 : (chunksOf (a :: b :: rest)).map (fun c => fmtChunk c.1 c.2.1 c.2.2) =
      (chunksOf (a :: b :: rest)).map (fun c => joinComma (chunkTokensOf c)) :=
    List.map_congr_left (fun c _ => fmtChunk_eq_join c.1 c.2.1 c.2.2)
  rw [h1, show (chunksOf (a :: b :: rest)).map (fun c => joinComma (chunkTokensOf c)) =
    ((chunksOf (a :: b :: rest)).map chunkTokensOf).map joinComma from by
      rw [List.map_map]; rfl]
  rw [joinComma_flatten _ (fun t ht => by
    obtain ⟨c, -, rfl⟩ := List.mem_map.mp ht
    exact chunkTokens_ne_nil c.1 c.2.1 c.2.2)]
  rw [← List.flatMap_def]

/-- The formatted string of a sorted multi-element list starts with a digit. -/
theorem format_cons2_headDigit (a b : ℕ) (rest : List ℕ)
    (hins : (a :: b :: rest).insertionSort (· ≤ ·) = a :: b :: rest) :
    ∃ c cs, format_cpu_list_range (a :: b :: rest) = c :: cs ∧
      isDigitChar c = true := by
  obtain ⟨suffix, rtoks, htok⟩ :=
    chunkTokens_head a (takeRun a (detectStep (a :: b :: rest)) (b :: rest)).1
      (detectStep (a :: b :: rest))
  obtain ⟨c, cs, hrn⟩ : ∃ c cs, renderNat a = c :: cs := by
    cases h : renderNat a with
    | nil => exact absurd h (renderNat_ne_nil a)
    | cons c cs => exact ⟨c, cs, rfl⟩
  have hd : isDigitChar c = true := renderNat_digits a c (by simp [hrn])
  have e1 : ∃ junk, format_cpu_list_range (a :: b :: rest) =
      (renderNat a ++ suffix) ++ junk := by
    rw [format_cons2_eq a b rest hins, chunksOf_cons, List.map_cons, joinComma_cons,
        fmtChunk_eq_join, htok, joinComma_cons]
    exact ⟨_, by rw [List.append_assoc]⟩
  obtain ⟨junk, e1⟩ := e1
  exact ⟨c, cs ++ (suffix ++ junk), by rw [e1, hrn]; simp, hd⟩

/-- A string starting with a digit is neither empty nor a `null`/`empty`
literal. -/
theorem digit_headed_not_special (t : List Char) (c : Char) (cs : List Char)
    (h : t = c :: cs) (hd : isDigitChar c = true) :
    ¬(t = [] ∨ t = "null".toList ∨ t = "empty".toList) := by
  subst h
  rintro (h | h | h)
  · simp at h
  · rw [show "null".toList = 'n' :: "ull".toList from rfl] at h
    injection h with h1 _
    exact (isDigitChar_facts c hd).2.2.2.2.2.1 h1
  · rw [show "empty".toList = 'e' :: "mpty".toList from rfl] at h
    injection h with h1 _
    exact (isDigitChar_facts c hd).2.2.2.2.2.2 h1

/-- Counterexample to C3 as stated: for the strided set `{0,2,4,6}` the
formatter emits step notation `"0-6:2 (even)"`, on which the parser raises
an uncaught `ValueError` (`int("6:2 (even)")`) instead of recovering the
set. -/
theorem C3_counterexample :
    format_cpu_list_range [0, 2, 4, 6] = "0-6:2 (even)".toList ∧
    parse_cpu_range (format_cpu_list_range [0, 2, 4, 6]) = none := by
  exact ⟨by decide, by decide⟩

/-- **C3 (amended).** For every finite set `S` of CPUs (as a strictly
ascending list), **whenever the formatter's output contains no step
notation** (no `':'`), parsing the formatted string recovers exactly `S`:
this covers the plain, dash-range and short-step-listing branches.  When a
long arithmetic progression makes the formatter emit `start-end:step`
notation, the parser instead raises an uncaught `ValueError` on the
malformed dash token (see the counterexample). -/
theorem C3_roundtrip_amended (l : List ℕ) (hsort : l.Sorted (· < ·))
    (hnc : (':' : Char) ∉ format_cpu_list_range l) :
    parse_cpu_range (format_cpu_list_range l) =
      some (l.map (fun n : ℕ => (n : ℤ))) := by
  have hins : l.insertionSort (· ≤ ·) = l :=
    List.Sorted.insertionSort_eq (hsort.imp (fun h => le_of_lt h))
  cases l with
  | nil => decide
  | cons a l1 =>
    cases l1 with
    | nil =>
      have hfmt : format_cpu_list_range [a] = renderNat a := by
        have h : format_cpu_list_range [a] =
            match [a].insertionSort (· ≤ ·) with
            | [] => []
            | [x] => renderNat x
            | x :: y :: r =>
              joinComma ((chunksOf (x :: y :: r)).map
                (fun c => fmtChunk c.1 c.2.1 c.2.2)) := rfl
        rw [hins] at h
        exact h
      obtain ⟨c, cs, hrn⟩ : ∃ c cs, renderNat a = c :: cs := by
        cases h : renderNat a with
        | nil => exact absurd h (renderNat_ne_nil a)
        | cons c cs => exact ⟨c, cs, rfl⟩
      have hd : isDigitChar c = true := renderNat_digits a c (by simp [hrn])
      rw [hfmt, parse_cpu_range,
        if_neg (digit_headed_not_special _ c cs hrn hd),
        splitOnChar_nomem ',' _ (fun hm =>
          (isDigitChar_facts ',' (renderNat_digits a ',' hm)).2.2.1 rfl)]
      simp [parseGo, parseToken_renderNat]
    | cons b rest =>
      obtain ⟨hgood, hflat⟩ :=
        chunksOf_spec (a :: b :: rest).length (a :: b :: rest) (le_refl _) hsort
      have hncchunk : ∀ c ∈ chunksOf (a :: b :: rest),
          (':' : Char) ∉ fmtChunk c.1 c.2.1 c.2.2 := by
        intro c hc hcol
        apply hnc
        rw [format_cons2_eq a b rest hins]
        exact mem_joinComma ':' _ _ (List.mem_map_of_mem _ hc) hcol
      have hspec : ∀ c ∈ chunksOf (a :: b :: rest),
          (∀ t ∈ chunkTokensOf c, ((',' : Char) ∉ t) ∧
            parseToken t = some (tokVal t)) ∧
          (chunkTokensOf c).flatMap tokVal =
            (stepSeq c.1 c.2.1 c.2.2).map (fun n : ℕ => (n : ℤ)) := by
        intro c hc
        obtain ⟨hs, k, hk⟩ := hgood c hc
        exact chunkTokens_spec c.1 c.2.1 c.2.2 k hs hk (hncchunk c hc)
      have htoksparse : ∀ t ∈ (chunksOf (a :: b :: rest)).flatMap chunkTokensOf,
          parseToken t = some (tokVal t) := by
        intro t ht
        obtain ⟨c, hc, htc⟩ := List.mem_flatMap.mp ht
        exact ((hspec c hc).1 t htc).2
      have htokscomma : ∀ t ∈ (chunksOf (a :: b :: rest)).flatMap chunkTokensOf,
          (',' : Char) ∉ t := by
        intro t ht
        obtain ⟨c, hc, htc⟩ := List.mem_flatMap.mp ht
        exact ((hspec c hc).1 t htc).1
      have htoksne : (chunksOf (a :: b :: rest)).flatMap chunkTokensOf ≠ [] := by
        rw [chunksOf_cons, List.flatMap_cons]
        intro hnil
        have h := chunkTokens_ne_nil a
          (takeRun a (detectStep (a :: b :: rest)) (b :: rest)).1
          (detectStep (a :: b :: rest))
        cases hct : chunkTokens a
            (takeRun a (detectStep (a :: b :: rest)) (b :: rest)).1
            (detectStep (a :: b :: rest)) with
        | nil => exact h hct
        | cons t ts =>
          rw [show chunkTokensOf (a,
            (takeRun a (detectStep (a :: b :: rest)) (b :: rest)).1,
            detectStep (a :: b :: rest)) = chunkTokens a
              (takeRun a (detectStep (a :: b :: rest)) (b :: rest)).1
              (detectStep (a :: b :: rest)) from rfl, hct] at hnil
          simp at hnil
      have hfmt : format_cpu_list_range (a :: b :: rest) =
          joinComma ((chunksOf (a :: b :: rest)).flatMap chunkTokensOf) :=
        format_cons2_toks a b rest hins
      obtain ⟨c, cs, hhead, hd⟩ := format_cons2_headDigit a b rest hins
      have hh2 : joinComma ((chunksOf (a :: b :: rest)).flatMap chunkTokensOf) =
          c :: cs := hfmt ▸ hhead
      rw [hfmt, parse_cpu_range, if_neg (digit_headed_not_special _ c cs hh2 hd),
        splitOnChar_joinComma _ htoksne htokscomma,
        parseGo_tokens _ [] htoksparse, List.nil_append]
      congr 1
      rw [List.flatMap_assoc]
      have hpt : (chunksOf (a :: b :: rest)).flatMap
          (fun c => (chunkTokensOf c).flatMap tokVal) =
          (chunksOf (a :: b :: rest)).flatMap
          (fun c => (stepSeq c.1 c.2.1 c.2.2).map (fun n : ℕ => (n : ℤ))) := by
        rw [List.flatMap_def, List.flatMap_def,
          List.map_congr_left (fun c hc => (hspec c hc).2)]
      rw [hpt, ← List.map_flatMap, hflat]

/-- Witness for C3 on both rendering branches without step notation: the
spec's example `{0,1,2,3,8,16,17,18,19,20}` (formatted `"0-3,8,16-20"`) and
a short strided set `{0,2,4}` (formatted `"0,2,4"`) both round-trip. -/
theorem C3_roundtrip_amended_witness :
    format_cpu_list_range [0, 1, 2, 3, 8, 16, 17, 18, 19, 20] = "0-3,8,16-20".toList ∧
    parse_cpu_range (format_cpu_list_range [0, 1, 2, 3, 8, 16, 17, 18, 19, 20]) =
      some [0, 1, 2, 3, 8, 16, 17, 18, 19, 20] ∧
    format_cpu_list_range [0, 2, 4] = "0,2,4".toList ∧
    parse_cpu_range (format_cpu_list_range [0, 2, 4]) = some [0, 2, 4] := by
  refine ⟨by decide, ?_, by decide, ?_⟩
  · exact (C3_roundtrip_amended [0, 1, 2, 3, 8, 16, 17, 18, 19, 20]
      (by decide) (by decide)).trans (by decide)
  · exact (C3_roundtrip_amended [0, 2, 4] (by decide) (by decide)).trans (by decide)
